import Mathlib

/-!
Verification development for the image timestamp inference and gallery
organization engine of the AVplatform repository (modules
`src/image_preview.py` and `src/image_preview_optimized.py`).

The Python code is shallowly embedded: pure functions become Lean
functions, the mutable `ImageCache` becomes explicit state passing,
filesystem access and image decoding become explicit environment
functions, and Python exceptions become `Option`/`Except` values.
-/

namespace AVP

/-! ## Python `datetime` values

`datetime.fromtimestamp` produces a naive local datetime from an epoch
value; `datetime(y, m, d, h, mi, s)` produces a naive civil datetime.
We keep the two construction routes as separate constructors and record
epoch results in microseconds (the resolution of Python `datetime`).
The local-timezone rendering of epoch values is left abstract, as no
claim depends on it.  For the 13-digit branch the source computes
`fromtimestamp(int(s) / 1000)`; we record the exact millisecond value
(the sub-microsecond float rounding of the division is ignored, and no
claim depends on it). -/
inductive PyDatetime where
  | fromUnixMicro (us : ℤ)
  | civil (y m d h mi s : ℕ)
deriving DecidableEq, Repr

/-- `datetime.fromtimestamp(n)` for an integer number of epoch seconds.
For the digit counts produced by the resolver (at most 10 digits, hence
at most 9999999999 ≈ year 2286) this never raises on the 64-bit hosts
the code targets, so it is modelled as total. -/
def pyFromTimestampSec (n : ℕ) : PyDatetime := .fromUnixMicro (n * 1000000)

/-- `datetime.fromtimestamp(n / 1000)` for a 13-digit epoch-millisecond value. -/
def pyFromTimestampMs (n : ℕ) : PyDatetime := .fromUnixMicro (n * 1000)

/-- Gregorian leap-year rule used by Python `datetime`. -/
def isLeapYear (y : ℕ) : Bool := (y % 4 == 0 && y % 100 != 0) || y % 400 == 0

/-- Number of days in a month, as validated by the `datetime` constructor. -/
def daysInMonth (y m : ℕ) : ℕ :=
  if m == 2 then (if isLeapYear y then 29 else 28)
  else if m == 4 || m == 6 || m == 9 || m == 11 then 30
  else 31

/-- Field validity enforced by `datetime(y, m, d, ...)` (MINYEAR = 1,
MAXYEAR = 9999); violation raises `ValueError`. -/
def validDate (y m d : ℕ) : Bool :=
  decide (1 ≤ y ∧ y ≤ 9999 ∧ 1 ≤ m ∧ m ≤ 12 ∧ 1 ≤ d ∧ d ≤ daysInMonth y m)

/-- Validity of the time-of-day fields of `datetime(...)`. -/
def validTime (h mi s : ℕ) : Bool := decide (h ≤ 23 ∧ mi ≤ 59 ∧ s ≤ 59)

/-- `datetime(y, m, d, h, mi, s)`: `none` models the `ValueError` raised
on an out-of-range field. -/
def pyDatetimeCivil (y m d h mi s : ℕ) : Option PyDatetime :=
  if validDate y m d && validTime h mi s then some (.civil y m d h mi s) else none

/-! ## Regular-expression fragments of the resolver

The five patterns of `extract_timestamp_from_filename` are built from
three constructs: a literal `unix`, an optional single separator
`[_-]?`, and fixed-width digit runs `\d{k}`.  Each `[_-]?` is greedy,
but since `_` and `-` are not digits the greedy choice is forced: if a
separator is present and no digit run follows it, the backtracked
no-separator alternative fails on the separator character itself.  The
matchers below therefore consume a separator exactly when one is
present.  `re.search` tries successive start positions left to right
and returns the first (leftmost) match, which `reSearch` mirrors. -/

def isDigitCh (c : Char) : Bool := decide ('0' ≤ c) && decide (c ≤ '9')

def isSepCh (c : Char) : Bool := c == '_' || c == '-'

/-- Consume the single optional separator of `[_-]?`. -/
def skipOneSep : List Char → List Char
  | [] => []
  | c :: cs => if isSepCh c then cs else c :: cs

/-- Match `\d{k}` at the start of the input, returning the digits and
the remaining input.  Trailing characters are not anchored, matching
the source regexes. -/
def takeDigits : ℕ → List Char → Option (List Char × List Char)
  | 0, cs => some ([], cs)
  | _ + 1, [] => none
  | k + 1, c :: cs =>
    if isDigitCh c then (takeDigits k cs).map (fun p => (c :: p.1, p.2)) else none

/-- Match `unix[_-]?(\d{k})` at the start of the input, returning the
captured digit group. -/
def matchUnixAt (k : ℕ) : List Char → Option (List Char)
  | 'u' :: 'n' :: 'i' :: 'x' :: rest => (takeDigits k (skipOneSep rest)).map (·.1)
  | _ => none

/-- Numeric value of a digit group, as computed by Python `int`. -/
def digitsToNat (ds : List Char) : ℕ :=
  ds.foldl (fun n c => 10 * n + (c.toNat - '0'.toNat)) 0

/-- Match `(\d{4})[-_]?(\d{2})[-_]?(\d{2})[-_]?(\d{2})[-_]?(\d{2})[-_]?(\d{2})`
at the start of the input (the `YYYYMMDDHHMMSS` pattern). -/
def matchDate14At (cs : List Char) : Option (ℕ × ℕ × ℕ × ℕ × ℕ × ℕ) := do
  let (g1, r1) ← takeDigits 4 cs
  let (g2, r2) ← takeDigits 2 (skipOneSep r1)
  let (g3, r3) ← takeDigits 2 (skipOneSep r2)
  let (g4, r4) ← takeDigits 2 (skipOneSep r3)
  let (g5, r5) ← takeDigits 2 (skipOneSep r4)
  let (g6, _) ← takeDigits 2 (skipOneSep r5)
  pure (digitsToNat g1, digitsToNat g2, digitsToNat g3,
        digitsToNat g4, digitsToNat g5, digitsToNat g6)

/-- Match `(\d{4})[-_]?(\d{2})[-_]?(\d{2})` at the start of the input
(the `YYYYMMDD` pattern). -/
def matchDate8At (cs : List Char) : Option (ℕ × ℕ × ℕ) := do
  let (g1, r1) ← takeDigits 4 cs
  let (g2, r2) ← takeDigits 2 (skipOneSep r1)
  let (g3, _) ← takeDigits 2 (skipOneSep r2)
  pure (digitsToNat g1, digitsToNat g2, digitsToNat g3)

/-- `re.search`: try the matcher at each start position, leftmost match
first. -/
def reSearch (f : List Char → Option α) : List Char → Option α
  | [] => f []
  | c :: cs =>
    match f (c :: cs) with
    | some x => some x
    | none => reSearch f cs

/-- The `YYYYMMDD` stage of the cascade (pattern 5 followed by the
`datetime` construction, whose `ValueError` ends the loop with `None`). -/
def tryDate8 (cs : List Char) : Option PyDatetime :=
  match reSearch matchDate8At cs with
  | some (y, m, d) => pyDatetimeCivil y m d 0 0 0
  | none => none

/-- `extract_timestamp_from_filename` (identical in `image_preview.py`
and `image_preview_optimized.py`): ordered cascade of the five regex
patterns, first successful construction wins, a `ValueError`/`OSError`
during construction falls through to the next pattern. -/
def extractCore (cs : List Char) : Option PyDatetime :=
  match reSearch (matchUnixAt 16) cs with
  | some ds => some (pyFromTimestampSec (digitsToNat (ds.take 10)))
  | none =>
  match reSearch (matchUnixAt 13) cs with
  | some ds => some (pyFromTimestampMs (digitsToNat ds))
  | none =>
  match reSearch (matchUnixAt 10) cs with
  | some ds => some (pyFromTimestampSec (digitsToNat ds))
  | none =>
  match reSearch matchDate14At cs with
  | some (y, m, d, h, mi, s) =>
    match pyDatetimeCivil y m d h mi s with
    | some t => some t
    | none => tryDate8 cs
  | none => tryDate8 cs

/-- `extract_timestamp_from_filename` on a Python string. -/
def extract_timestamp_from_filename (filename : String) : Option PyDatetime :=
  extractCore filename.data

/-! ## Gallery organizer

`organize_images_by_timestamp` (full variant, `image_preview.py`) and
`organize_images_fast` (`image_preview_optimized.py`) read the
filesystem and decode images.  The environment is modelled as a
function from paths to optional filesystem entries (`none` when
`os.path.exists` is false).  The organizer's own logic — candidate
selection, priority, record construction, sorting — is independent of
how the host platform compares the `datetime` values it sorts by (a
local-timezone question outside any claim), so the embedding is
parametric in a linearly ordered timestamp type `τ` and in the
resolver `resolve : String → Option τ` standing for
`extract_timestamp_from_filename` composed with that comparison. -/

/-- Provenance of a record's timestamp.  The source uses the literal
strings "文件名" (filename), "EXIF", "文件修改时间" (file modification
time). -/
inductive TimeSource where
  | filename
  | exif
  | mtime
deriving DecidableEq, Repr

/-- The parts of a successfully opened `PIL.Image` that the organizer
reads: `size`, `format`, `mode`, and the EXIF `DateTime` tag after
`strptime(value, "%Y:%m:%d %H:%M:%S")`; `exifDateTime = none` when the
tag is absent or fails to parse. -/
structure PyImage (τ : Type) where
  size : ℕ × ℕ
  format : String
  mode : String
  exifDateTime : Option τ
deriving DecidableEq

/-- One existing filesystem path: `os.path.getmtime`, `os.path.getsize`,
and the result of `Image.open` (`none` when opening/decoding raises). -/
structure FSEntry (τ : Type) where
  mtime : τ
  file_size : ℕ
  image : Option (PyImage τ)
deriving DecidableEq

/-- The dictionary built by `get_image_metadata`.  The opaque name →
value EXIF tag map the source also stores (displayed but never
interpreted beyond `DateTime`) is not modelled; `datetime` is present
exactly when the `DateTime` tag exists and `strptime` accepts it. -/
structure PyMeta (τ : Type) where
  size : ℕ × ℕ
  format : String
  mode : String
  file_size : ℕ
  datetime : Option τ
deriving DecidableEq

/-- `get_image_metadata`: `None` when `Image.open` raises, otherwise the
metadata dictionary (with the parsed `datetime` entry when available). -/
def get_image_metadata (fs : String → Option (FSEntry τ)) (p : String) :
    Option (PyMeta τ) :=
  match fs p with
  | none => none
  | some e => e.image.map fun im =>
      ⟨im.size, im.format, im.mode, e.file_size, im.exifDateTime⟩

/-- `os.path.basename`: the part of the path after the last `/`. -/
def basenameCore (cs : List Char) : List Char :=
  cs.foldl (fun acc c => if c == '/' then [] else acc ++ [c]) []

def basename (p : String) : String := ⟨basenameCore p.data⟩

/-- One record of the organized collection (full variant). -/
structure ImageRecord (τ : Type) where
  path : String
  filename : String
  timestamp : τ
  time_source : TimeSource
  metadata : Option (PyMeta τ)
deriving DecidableEq

/-- The per-path body of the `organize_images_by_timestamp` loop:
skip missing paths, compute the filename / EXIF / mtime candidates, and
select by priority.  The record is appended unconditionally once the
path exists (`image_preview.py` lines 98–130). -/
def processOne (fs : String → Option (FSEntry τ)) (resolve : String → Option τ)
    (p : String) : Option (ImageRecord τ) :=
  match fs p with
  | none => none
  | some e =>
    match resolve (basename p) with
    | some t => some ⟨p, basename p, t, .filename, get_image_metadata fs p⟩
    | none =>
      match (get_image_metadata fs p).bind (fun m => m.datetime) with
      | some t => some ⟨p, basename p, t, .exif, get_image_metadata fs p⟩
      | none => some ⟨p, basename p, e.mtime, .mtime, get_image_metadata fs p⟩

/-- `list.sort(key=...)`: Python guarantees a stable ascending sort by
the key.  Insertion sort with the non-strict comparison
`key a ≤ key b` is such a sort, and a stable ascending sort of a list
is unique, so this is observationally the source's Timsort. -/
def pySortByKey [LinearOrder τ] (key : α → τ) (l : List α) : List α :=
  List.insertionSort (fun a b => key a ≤ key b) l

/-- `organize_images_by_timestamp` (full variant). -/
def organize_images_by_timestamp [LinearOrder τ] (fs : String → Option (FSEntry τ))
    (resolve : String → Option τ) (files : List String) : List (ImageRecord τ) :=
  pySortByKey (·.timestamp) (files.filterMap (processOne fs resolve))

/-- One record of the fast variant (`get_basic_image_info`). -/
structure FastInfo (τ : Type) where
  path : String
  filename : String
  timestamp : τ
  time_source : TimeSource
  file_size : ℕ
  format : String
deriving DecidableEq

/-- Characters after the last `.` of the non-leading-dot part, or `none`
when there is no such dot (`os.path.splitext` extension, sans dot). -/
def afterLastDot : List Char → Option (List Char)
  | [] => none
  | c :: cs =>
    match afterLastDot cs with
    | some r => some r
    | none => if c == '.' then some cs else none

/-- `os.path.splitext(filename)[1].upper().replace('.', '')`:
the extension (which holds a single leading dot) uppercased with the
dot removed. -/
def extFormat (fn : String) : String :=
  let cs := fn.data
  let rest := cs.drop (cs.takeWhile (· == '.')).length
  match afterLastDot rest with
  | some r => ⟨r.map Char.toUpper⟩
  | none => ""

/-- `get_basic_image_info`: existence check, filename-cascade timestamp
with mtime fallback (no EXIF), byte size, extension-guessed format. -/
def get_basic_image_info (fs : String → Option (FSEntry τ))
    (resolve : String → Option τ) (p : String) : Option (FastInfo τ) :=
  match fs p with
  | none => none
  | some e =>
    match resolve (basename p) with
    | some t =>
      some ⟨p, basename p, t, .filename, e.file_size, extFormat (basename p)⟩
    | none =>
      some ⟨p, basename p, e.mtime, .mtime, e.file_size, extFormat (basename p)⟩

/-- `organize_images_fast`. -/
def organize_images_fast [LinearOrder τ] (fs : String → Option (FSEntry τ))
    (resolve : String → Option τ) (files : List String) : List (FastInfo τ) :=
  pySortByKey (·.timestamp) (files.filterMap (get_basic_image_info fs resolve))

/-! ## Grid pagination

Both `show_image_grid_preview` (`images_per_page = cols * 4`) and
`show_optimized_grid_preview` (`images_per_page = cols * 3`) first
reassign `cols = st.select_slider(options=[2, 3, 4, 5, 6], value=cols)`
and only then compute
`total_pages = (len(image_data) + ipp - 1) // ipp` and the page slices
`data[(page-1)*ipp : min((page-1)*ipp + ipp, len(data))]`.
Python `//` is floor division and raises `ZeroDivisionError` on a zero
divisor, but the widget stage runs first: `st.select_slider` raises a
`StreamlitAPIException` when the supplied value is not among the
options, and the value it returns is always one of the options, so the
division only ever sees `cols ∈ {2, …, 6}`.  The rows-per-page
multiplier is the hard-coded literal 4 (full grid) or 3 (optimized
grid). -/

inductive PyError where
  | zeroDivisionError
  /-- The `StreamlitAPIException` raised by `st.select_slider` when the
  supplied default value is not among the options — a configuration
  error distinguishable from the arithmetic `ZeroDivisionError`. -/
  | configError
deriving DecidableEq, Repr

/-- Python integer floor division `a // b`. -/
def pyFloorDiv (a b : ℤ) : Except PyError ℤ :=
  if b = 0 then .error .zeroDivisionError else .ok (Int.fdiv a b)

/-- `images_per_page = cols * rows` (rows = 4 in the full grid,
3 in the optimized grid). -/
def images_per_page (cols rows : ℤ) : ℤ := cols * rows

/-- `total_pages = (len(image_data) + images_per_page - 1) // images_per_page`. -/
def grid_total_pages (n cols rows : ℤ) : Except PyError ℤ :=
  pyFloorDiv (n + images_per_page cols rows - 1) (images_per_page cols rows)

/-- `start_idx = (page - 1) * images_per_page`,
`end_idx = min(start_idx + images_per_page, len(image_data))`,
`page_images = image_data[start_idx:end_idx]` (indices are nonnegative
for every page the selector offers). -/
def grid_page_slice (data : List α) (cols rows page : ℤ) : List α :=
  let ipp := images_per_page cols rows
  let start := (page - 1) * ipp
  let stop := min (start + ipp) (data.length : ℤ)
  (data.take stop.toNat).drop start.toNat

/-- The column options both grid sliders offer:
`st.select_slider("...", options=[2, 3, 4, 5, 6], value=cols)`. -/
def gridColsOptions : List ℤ := [2, 3, 4, 5, 6]

/-- `st.select_slider(options=..., value=val)`: raises a
`StreamlitAPIException` when the supplied default `val` is not among
the options; otherwise returns the widget's current selection, which
the widget keeps within the options (falling back to the default).
`selection` stands for the interactive session state. -/
def st_select_slider (options : List ℤ) (val selection : ℤ) :
    Except PyError ℤ :=
  if val ∈ options then
    .ok (if selection ∈ options then selection else val)
  else .error .configError

/-- The configuration-and-page-count prologue shared by the two grid
functions: reassign `cols` through the slider, then compute
`total_pages`.  `rows` is the literal 4 in `show_image_grid_preview`
and 3 in `show_optimized_grid_preview`. -/
def show_grid_pagination (rows n colsArg selection : ℤ) : Except PyError ℤ :=
  match st_select_slider gridColsOptions colsArg selection with
  | .error e => .error e
  | .ok cols => grid_total_pages n cols rows

/-! ## Aggregate statistics: most frequent value

`show_image_preview_interface` computes
`main_source = max(set(time_sources), key=time_sources.count)` (and the
analogous `main_format`).  `max` over an iterable returns the first
element, in iteration order, whose key is maximal (later elements
replace the current best only on a strictly greater key).  The
iteration order of a Python `set` of strings is hash-determined and
not the first-occurrence order of the list, so it is a parameter
`setOrder` here, constrained to enumerate the distinct elements. -/

/-- `max(iter, key=lambda a: xs.count(a))`; `none` models the
`ValueError` Python raises on an empty iterable. -/
def pyMaxByCount [DecidableEq α] (iter : List α) (xs : List α) : Option α :=
  match iter with
  | [] => none
  | a :: rest =>
    some (rest.foldl (fun best x => if xs.count best < xs.count x then x else best) a)

/-- `setOrder` is a valid enumeration of `set(xs)`: the distinct
elements of `xs`, each exactly once, in some order. -/
def isSetEnum [DecidableEq α] (setOrder xs : List α) : Prop :=
  setOrder.Nodup ∧ ∀ a, a ∈ setOrder ↔ a ∈ xs

/-- `main_source = max(set(xs), key=xs.count)` for a given set
enumeration order. -/
def main_source_of [DecidableEq α] (setOrder xs : List α) : Option α :=
  pyMaxByCount setOrder xs

/-- The distinct elements of `xs` in first-occurrence order. -/
def firstDedupAux [DecidableEq α] (seen : List α) : List α → List α
  | [] => []
  | a :: l =>
    if a ∈ seen then firstDedupAux seen l else a :: firstDedupAux (a :: seen) l

/-- Modelled from the spec: "the most frequent `timeSource` value (ties
broken by first-encountered-in-iteration-order, consistent with a
stable mode computation)" — the stable mode the spec describes,
written for comparison with `main_source_of`. -/
def stableModeSpec [DecidableEq α] (xs : List α) : Option α :=
  pyMaxByCount (firstDedupAux [] xs) xs

/-! ## The thumbnail/preview cache

`ImageCache` holds two Python dicts (`cache`, `access_time`) and a
capacity.  Python dicts preserve insertion order; updating the value of
an existing key keeps its position, inserting a new key appends, `del`
removes.  They are modelled as association lists.  `time.time()` is
modelled as a logical clock stored in the state and incremented at each
`get_thumbnail`/`get_preview` call (the physical clock is
non-decreasing; successive readings are modelled as strictly
increasing, which also fixes `min`'s tie-break to a determinate
value). -/

/-- Python dict lookup `d[k]`/`k in d`: first (unique) binding. -/
def dictGet (d : List (String × β)) (k : String) : Option β :=
  (d.find? (fun kv => kv.1 == k)).map (·.2)

/-- Python dict assignment `d[k] = v`: update in place if present,
append otherwise. -/
def dictSet (d : List (String × β)) (k : String) (v : β) : List (String × β) :=
  if d.any (fun kv => kv.1 == k) then
    d.map (fun kv => if kv.1 == k then (k, v) else kv)
  else d ++ [(k, v)]

/-- Python dict deletion `del d[k]`. -/
def dictDel (d : List (String × β)) (k : String) : List (String × β) :=
  d.filter (fun kv => !(kv.1 == k))

/-- `min(d.keys(), key=lambda k: d[k])`: the first key, in dict order,
with minimal value; `none` models the `ValueError` on an empty dict. -/
def argminFirst (d : List (String × ℕ)) : Option String :=
  match d with
  | [] => none
  | kv :: rest =>
    some (rest.foldl (fun best x => if x.2 < best.2 then x else best) kv).1

/-- The state of an `ImageCache` instance (image payload type `I`). -/
structure ImageCache (I : Type) where
  max_size : ℕ
  cache : List (String × I)
  access_time : List (String × ℕ)
  clock : ℕ
deriving DecidableEq

/-- `ImageCache(max_size)`. -/
def ImageCache.init (I : Type) (n : ℕ) : ImageCache I := ⟨n, [], [], 0⟩

/-- `_evict_oldest`: when at (or above) capacity, delete the
least-recently-accessed key from both dicts.  `none` models the
`ValueError` of `min` on an empty dict (reachable only with
`max_size = 0`); inside `get_thumbnail`/`get_preview` it is absorbed by
the surrounding `except`. -/
def evict_oldest (c : ImageCache I) : Option (ImageCache I) :=
  if c.max_size ≤ c.cache.length then
    match argminFirst c.access_time with
    | none => none
    | some k => some { c with cache := dictDel c.cache k,
                              access_time := dictDel c.access_time k }
  else some c

/-- Common body of `get_thumbnail` and `get_preview`: `ns` is the key
namespace ("thumb_" or "preview_"), `decode : String → Option I` stands
for `Image.open` + `thumbnail` + `convert` (`none` when any step
raises).  On a hit the access time is refreshed; on a miss with a
successful decode, `_evict_oldest` runs and the entry is stored under
the current time; a decode failure (or the `max_size = 0` eviction
error) is caught and yields `None` with the dicts untouched. -/
def getCached (ns : String) (decode : String → Option I) (c : ImageCache I)
    (p : String) : Option I × ImageCache I :=
  let key := ns ++ p
  let t := c.clock
  let c1 := { c with clock := c.clock + 1 }
  match dictGet c1.cache key with
  | some img => (some img, { c1 with access_time := dictSet c1.access_time key t })
  | none =>
    match decode p with
    | none => (none, c1)
    | some img =>
      match evict_oldest c1 with
      | none => (none, c1)
      | some c2 =>
        (some img, { c2 with cache := dictSet c2.cache key img,
                             access_time := dictSet c2.access_time key t })

/-- `ImageCache.get_thumbnail`. -/
def get_thumbnail (decode : String → Option I) (c : ImageCache I) (p : String) :
    Option I × ImageCache I :=
  getCached "thumb_" decode c p

/-- `ImageCache.get_preview`. -/
def get_preview (decode : String → Option I) (c : ImageCache I) (p : String) :
    Option I × ImageCache I :=
  getCached "preview_" decode c p

/-- Run a sequence of `get_thumbnail` calls, keeping the state. -/
def runThumbs (decode : String → Option I) (c : ImageCache I)
    (ps : List String) : ImageCache I :=
  ps.foldl (fun c p => (get_thumbnail decode c p).2) c

/-- Run a mixed sequence of calls: `(true, p)` is `get_thumbnail p`,
`(false, p)` is `get_preview p`. -/
def runOps (decT decP : String → Option I) (c : ImageCache I)
    (ops : List (Bool × String)) : ImageCache I :=
  ops.foldl
    (fun c op =>
      if op.1 then (get_thumbnail decT c op.2).2 else (get_preview decP c op.2).2)
    c

/-! ### Proof-support definitions -/

/-- The cache entries produced by thumbnailing each path of a list in
order (used to describe the state reached by `runThumbs`). -/
def thumbEntries (decode : String → Option I) (qs : List String) :
    List (String × I) :=
  qs.filterMap (fun q => (decode q).map (fun i => ("thumb_" ++ q, i)))

/-- The access-time entries recorded while thumbnailing each path of a
list in order, starting at clock value `t0`. -/
def stamps : ℕ → List String → List (String × ℕ)
  | _, [] => []
  | t0, q :: qs => ("thumb_" ++ q, t0) :: stamps (t0 + 1) qs

/-- A filesystem with a single existing path `photo.png` whose image
cannot be decoded (`Image.open` raises), with mtime 0 and size 7. -/
def fsUndecodable : String → Option (FSEntry ℤ) :=
  fun p => if p = "photo.png" then some ⟨0, 7, none⟩ else none

/-- A resolver finding no timestamp in any filename (as
`extract_timestamp_from_filename` does on digit-free names such as
`photo.png`). -/
def resolveNone : String → Option ℤ := fun _ => none

/-- A decoder that succeeds on every path (concrete witness environment). -/
def someUnitDecode : String → Option Unit := fun _ => some ()

/-- A decoder that fails on every path (concrete witness environment). -/
def noneUnitDecode : String → Option Unit := fun _ => none

instance keyLe_isTotal [LinearOrder τ] (key : α → τ) :
    IsTotal α (fun a b => key a ≤ key b) :=
  ⟨fun a b => le_total (key a) (key b)⟩

instance keyLe_isTrans [LinearOrder τ] (key : α → τ) :
    IsTrans α (fun a b => key a ≤ key b) :=
  ⟨fun _ _ _ hab hbc => le_trans hab hbc⟩


/-! ## Sorting and organizer helper lemmas -/

theorem pairwise_key_pySortByKey [LinearOrder τ] (key : α → τ) (l : List α) :
    (pySortByKey key l).Pairwise (fun a b => key a ≤ key b) :=
  List.sorted_insertionSort (fun a b => key a ≤ key b) l

theorem mem_pySortByKey [LinearOrder τ] (key : α → τ) (l : List α) (x : α) :
    x ∈ pySortByKey key l ↔ x ∈ l :=
  List.mem_insertionSort _

theorem filter_key_orderedInsert [LinearOrder τ] (key : α → τ) (t : τ) (a : α)
    (l : List α) :
    (List.orderedInsert (fun x y => key x ≤ key y) a l).filter
        (fun x => decide (key x = t)) =
      if key a = t then a :: l.filter (fun x => decide (key x = t))
      else l.filter (fun x => decide (key x = t)) := by
  induction l with
  | nil => by_cases h : key a = t <;> simp [List.orderedInsert, h]
  | cons b l ih =>
    rw [List.orderedInsert]
    by_cases hab : key a ≤ key b
    · rw [if_pos hab]
      by_cases ha : key a = t <;> simp [List.filter_cons, ha]
    · rw [if_neg hab]
      have hba : key b < key a := lt_of_not_le hab
      rw [List.filter_cons, ih]
      by_cases ha : key a = t
      · have hb : ¬ key b = t := ne_of_lt (ha ▸ hba)
        simp [List.filter_cons, ha, hb]
      · by_cases hb : key b = t <;> simp [List.filter_cons, ha, hb]

theorem filter_key_pySortByKey [LinearOrder τ] (key : α → τ) (t : τ) (l : List α) :
    (pySortByKey key l).filter (fun x => decide (key x = t)) =
      l.filter (fun x => decide (key x = t)) := by
  induction l with
  | nil => rfl
  | cons a l ih =>
    show (List.orderedInsert _ a (pySortByKey key l)).filter _ = _
    rw [filter_key_orderedInsert, ih]
    by_cases ha : key a = t <;> simp [List.filter_cons, ha]

/-- Field characterization of a successful `processOne`: the path
exists, the record carries its basename and metadata, and timestamp and
source are selected by the filename > EXIF > mtime priority. -/
theorem processOne_eq_some_spec (fs : String → Option (FSEntry τ))
    (resolve : String → Option τ) (p : String) (r : ImageRecord τ)
    (h : processOne fs resolve p = some r) :
    ∃ e, fs p = some e ∧ r.path = p ∧ r.filename = basename p ∧
      r.metadata = get_image_metadata fs p ∧
      ((resolve (basename p) = some r.timestamp ∧ r.time_source = .filename) ∨
       (resolve (basename p) = none ∧
         (∃ m, get_image_metadata fs p = some m ∧ m.datetime = some r.timestamp) ∧
         r.time_source = .exif) ∨
       (resolve (basename p) = none ∧
         (∀ m, get_image_metadata fs p = some m → m.datetime = none) ∧
         r.timestamp = e.mtime ∧ r.time_source = .mtime)) := by
  unfold processOne at h
  cases hfs : fs p with
  | none => rw [hfs] at h; exact absurd h (by simp)
  | some e =>
    rw [hfs] at h
    refine ⟨e, rfl, ?_⟩
    cases hres : resolve (basename p) with
    | some t =>
      rw [hres] at h
      injection h with h'
      subst h'
      exact ⟨rfl, rfl, rfl, Or.inl ⟨rfl, rfl⟩⟩
    | none =>
      rw [hres] at h
      cases hex : (get_image_metadata fs p).bind (fun m => m.datetime) with
      | some t =>
        rw [hex] at h
        injection h with h'
        subst h'
        obtain ⟨m, hm⟩ : ∃ m, get_image_metadata fs p = some m := by
          cases hmd : get_image_metadata fs p with
          | none => rw [hmd] at hex; exact absurd hex (by simp)
          | some m => exact ⟨m, rfl⟩
        rw [hm] at hex
        simp at hex
        exact ⟨rfl, rfl, rfl, Or.inr (Or.inl ⟨rfl, ⟨m, hm, hex⟩, rfl⟩)⟩
      | none =>
        rw [hex] at h
        injection h with h'
        subst h'
        refine ⟨rfl, rfl, rfl, Or.inr (Or.inr ⟨rfl, ?_, rfl, rfl⟩)⟩
        intro m hm
        rw [hm] at hex
        simpa using hex

/-- A path that exists always yields a record, whose `path` field is
the path itself. -/
theorem processOne_isSome_of_exists (fs : String → Option (FSEntry τ))
    (resolve : String → Option τ) (p : String) (e : FSEntry τ)
    (hfs : fs p = some e) :
    ∃ r, processOne fs resolve p = some r ∧ r.path = p := by
  unfold processOne
  rw [hfs]
  cases hres : resolve (basename p) with
  | some t => exact ⟨_, rfl, rfl⟩
  | none =>
    cases hex : (get_image_metadata fs p).bind (fun m => m.datetime) with
    | some t => exact ⟨_, rfl, rfl⟩
    | none => exact ⟨_, rfl, rfl⟩

/-- Analogue of `processOne_isSome_of_exists` for the fast variant. -/
theorem get_basic_image_info_isSome_of_exists (fs : String → Option (FSEntry τ))
    (resolve : String → Option τ) (p : String) (e : FSEntry τ)
    (hfs : fs p = some e) :
    ∃ i, get_basic_image_info fs resolve p = some i ∧ i.path = p := by
  unfold get_basic_image_info
  rw [hfs]
  cases hres : resolve (basename p) with
  | some t => exact ⟨_, rfl, rfl⟩
  | none => exact ⟨_, rfl, rfl⟩

/-- A successful `get_basic_image_info` implies the path exists and is
recorded. -/
theorem get_basic_image_info_eq_some_path (fs : String → Option (FSEntry τ))
    (resolve : String → Option τ) (p : String) (i : FastInfo τ)
    (h : get_basic_image_info fs resolve p = some i) :
    ∃ e, fs p = some e ∧ i.path = p := by
  unfold get_basic_image_info at h
  cases hfs : fs p with
  | none => rw [hfs] at h; exact absurd h (by simp)
  | some e =>
    rw [hfs] at h
    cases hres : resolve (basename p) with
    | some t => rw [hres] at h; injection h with h'; subst h'; exact ⟨e, rfl, rfl⟩
    | none => rw [hres] at h; injection h with h'; subst h'; exact ⟨e, rfl, rfl⟩

/-! ## Helper lemmas for the most-frequent-value computation -/

theorem foldl_maxCount_mem [DecidableEq α] (xs : List α) :
    ∀ (rest : List α) (b : α),
      rest.foldl (fun best x => if xs.count best < xs.count x then x else best) b ∈
        b :: rest := by
  intro rest
  induction rest with
  | nil => intro b; simp
  | cons x rest ih =>
    intro b
    have h := ih (if xs.count b < xs.count x then x else b)
    simp only [List.foldl_cons]
    by_cases hc : xs.count b < xs.count x <;> simp [hc] at h ⊢ <;> tauto

theorem foldl_maxCount_ge [DecidableEq α] (xs : List α) :
    ∀ (rest : List α) (b y : α), y ∈ b :: rest →
      xs.count y ≤
        xs.count
          (rest.foldl (fun best x => if xs.count best < xs.count x then x else best)
            b) := by
  intro rest
  induction rest with
  | nil =>
    intro b y hy
    simp only [List.mem_cons, List.not_mem_nil, or_false] at hy
    subst hy
    simp
  | cons x rest ih =>
    intro b y hy
    simp only [List.foldl_cons]
    have hbb : xs.count b ≤ xs.count (if xs.count b < xs.count x then x else b) := by
      by_cases hc : xs.count b < xs.count x <;> simp [hc]
      exact le_of_lt hc
    have hxb : xs.count x ≤ xs.count (if xs.count b < xs.count x then x else b) := by
      by_cases hc : xs.count b < xs.count x <;> simp [hc]
      exact not_lt.1 hc
    have hhead :
        xs.count (if xs.count b < xs.count x then x else b) ≤
          xs.count
            (rest.foldl (fun best x => if xs.count best < xs.count x then x else best)
              (if xs.count b < xs.count x then x else b)) :=
      ih _ _ (by simp)
    rcases List.mem_cons.1 hy with rfl | hy'
    · exact le_trans hbb hhead
    · rcases List.mem_cons.1 hy' with rfl | hy''
      · exact le_trans hxb hhead
      · exact ih _ y (List.mem_cons_of_mem _ hy'')

/-! ## Claim C1 -/

/-- Claim C1: whenever the 16-digit `unix` pattern matches a filename
(leftmost search, capturing the digit run `ds`), the resolver returns
`datetime.fromtimestamp` of the integer value of the first 10 captured
digits — only the leading 10 of the 16 digits are significant.  No
assumption on the 13- and 10-digit `unix` patterns is needed: the
16-digit pattern is first in the cascade, so its match decides the
result even though the shorter patterns would also match a prefix of
the same run. -/
theorem unix16_takes_first_ten_digits (s : String) (ds : List Char)
    (h : reSearch (matchUnixAt 16) s.data = some ds) :
    extract_timestamp_from_filename s =
      some (pyFromTimestampSec (digitsToNat (ds.take 10))) := by
  unfold extract_timestamp_from_filename extractCore
  rw [h]

theorem unix16_takes_first_ten_digits_witness :
    reSearch (matchUnixAt 16) ("unix_1501822123278663" : String).data =
        some ("1501822123278663" : String).data ∧
      extract_timestamp_from_filename "unix_1501822123278663" =
        some (pyFromTimestampSec (digitsToNat (("1501822123278663" : String).data.take 10))) ∧
      pyFromTimestampSec (digitsToNat (("1501822123278663" : String).data.take 10)) =
        .fromUnixMicro (1501822123 * 1000000) :=
  ⟨by decide,
   unix16_takes_first_ten_digits "unix_1501822123278663" _ (by decide),
   by decide⟩

/-! ## Claim C4 -/

/-- Claim C4: when the 14-digit `YYYYMMDDHHMMSS` pattern matches
syntactically but the `datetime` construction rejects a field
(`pyDatetimeCivil … = none`), the resolver does not fail overall: it
falls through to the 8-digit stage (`tryDate8`), so a valid leading
`YYYYMMDD` match still produces midnight on that date, and only when
that final stage also fails does the resolver return `none`. -/
theorem date14_invalid_falls_through_to_date8 (s : String)
    (h16 : reSearch (matchUnixAt 16) s.data = none)
    (h13 : reSearch (matchUnixAt 13) s.data = none)
    (h10 : reSearch (matchUnixAt 10) s.data = none)
    (y m d hh mi sec : ℕ)
    (h14 : reSearch matchDate14At s.data = some (y, m, d, hh, mi, sec))
    (hbad : pyDatetimeCivil y m d hh mi sec = none) :
    extract_timestamp_from_filename s = tryDate8 s.data ∧
      (∀ y2 m2 d2 : ℕ, reSearch matchDate8At s.data = some (y2, m2, d2) →
        validDate y2 m2 d2 = true →
        extract_timestamp_from_filename s = some (.civil y2 m2 d2 0 0 0)) ∧
      (tryDate8 s.data = none → extract_timestamp_from_filename s = none) := by
  have hmain : extract_timestamp_from_filename s = tryDate8 s.data := by
    unfold extract_timestamp_from_filename extractCore
    rw [h16, h13, h10, h14]
    simp [hbad]
  refine ⟨hmain, ?_, ?_⟩
  · intro y2 m2 d2 h8 hval
    have hvt : validTime 0 0 0 = true := by decide
    rw [hmain]
    unfold tryDate8
    rw [h8]
    simp [pyDatetimeCivil, hval, hvt]
  · intro hnone
    rw [hmain, hnone]

/-! ## Claim C2 -/

/-- Claim C2: every record emitted by the full organize operation has
its timestamp and source selected by strict priority — filename cascade
first, then the parsed EXIF `DateTime` (carried by the metadata as
`datetime`), then the filesystem modification time.  The `timestamp`
field is total in the record type, so every emitted record has a
populated timestamp. -/
theorem organize_full_selects_by_priority [LinearOrder τ]
    (fs : String → Option (FSEntry τ)) (resolve : String → Option τ)
    (files : List String) (r : ImageRecord τ)
    (hr : r ∈ organize_images_by_timestamp fs resolve files) :
    ∃ e, fs r.path = some e ∧ r.filename = basename r.path ∧
      r.metadata = get_image_metadata fs r.path ∧
      ((resolve (basename r.path) = some r.timestamp ∧
         r.time_source = .filename) ∨
       (resolve (basename r.path) = none ∧
         (∃ m, get_image_metadata fs r.path = some m ∧
           m.datetime = some r.timestamp) ∧
         r.time_source = .exif) ∨
       (resolve (basename r.path) = none ∧
         (∀ m, get_image_metadata fs r.path = some m → m.datetime = none) ∧
         r.timestamp = e.mtime ∧ r.time_source = .mtime)) := by
  have hr' : r ∈ files.filterMap (processOne fs resolve) :=
    (mem_pySortByKey _ _ _).1 hr
  obtain ⟨p, _, hpr⟩ := List.mem_filterMap.1 hr'
  obtain ⟨e, hfs, hpath, hrest⟩ := processOne_eq_some_spec fs resolve p r hpr
  subst hpath
  exact ⟨e, hfs, hrest⟩

theorem organize_full_selects_by_priority_witness :
    (⟨"photo.png", "photo.png", 0, TimeSource.mtime, none⟩ : ImageRecord ℤ) ∈
        organize_images_by_timestamp fsUndecodable resolveNone ["photo.png"] ∧
      ∃ e,
        fsUndecodable
            (⟨"photo.png", "photo.png", 0, TimeSource.mtime, none⟩ :
              ImageRecord ℤ).path = some e ∧
          (⟨"photo.png", "photo.png", 0, TimeSource.mtime, none⟩ :
              ImageRecord ℤ).filename =
            basename
              (⟨"photo.png", "photo.png", 0, TimeSource.mtime, none⟩ :
                ImageRecord ℤ).path ∧
          (⟨"photo.png", "photo.png", 0, TimeSource.mtime, none⟩ :
              ImageRecord ℤ).metadata =
            get_image_metadata fsUndecodable
              (⟨"photo.png", "photo.png", 0, TimeSource.mtime, none⟩ :
                ImageRecord ℤ).path ∧
          ((resolveNone
                (basename
                  (⟨"photo.png", "photo.png", 0, TimeSource.mtime, none⟩ :
                    ImageRecord ℤ).path) =
              some
                (⟨"photo.png", "photo.png", 0, TimeSource.mtime, none⟩ :
                  ImageRecord ℤ).timestamp ∧
             (⟨"photo.png", "photo.png", 0, TimeSource.mtime, none⟩ :
                 ImageRecord ℤ).time_source = .filename) ∨
           (resolveNone
                (basename
                  (⟨"photo.png", "photo.png", 0, TimeSource.mtime, none⟩ :
                    ImageRecord ℤ).path) = none ∧
             (∃ m,
               get_image_metadata fsUndecodable
                   (⟨"photo.png", "photo.png", 0, TimeSource.mtime, none⟩ :
                     ImageRecord ℤ).path = some m ∧
                 m.datetime =
                   some
                     (⟨"photo.png", "photo.png", 0, TimeSource.mtime, none⟩ :
                       ImageRecord ℤ).timestamp) ∧
             (⟨"photo.png", "photo.png", 0, TimeSource.mtime, none⟩ :
                 ImageRecord ℤ).time_source = .exif) ∨
           (resolveNone
                (basename
                  (⟨"photo.png", "photo.png", 0, TimeSource.mtime, none⟩ :
                    ImageRecord ℤ).path) = none ∧
             (∀ m,
               get_image_metadata fsUndecodable
                   (⟨"photo.png", "photo.png", 0, TimeSource.mtime, none⟩ :
                     ImageRecord ℤ).path = some m → m.datetime = none) ∧
             (⟨"photo.png", "photo.png", 0, TimeSource.mtime, none⟩ :
                 ImageRecord ℤ).timestamp = e.mtime ∧
             (⟨"photo.png", "photo.png", 0, TimeSource.mtime, none⟩ :
                 ImageRecord ℤ).time_source = .mtime)) :=
  ⟨by decide,
   organize_full_selects_by_priority fsUndecodable resolveNone ["photo.png"] _
     (by decide)⟩

/-! ## Claim C3 -/

/-- Claim C3: both organize variants emit their records in ascending
timestamp order, and the sort is stable: for each timestamp value `t`,
the subsequence of output records with that timestamp equals the
subsequence of pre-sort records (which are in input order) with that
timestamp, so two inputs with exactly equal timestamps keep their
relative input order. -/
theorem organize_sorted_and_stable [LinearOrder τ]
    (fs : String → Option (FSEntry τ)) (resolve : String → Option τ)
    (files : List String) :
    (organize_images_by_timestamp fs resolve files).Pairwise
        (fun a b => a.timestamp ≤ b.timestamp) ∧
      (∀ t : τ,
        (organize_images_by_timestamp fs resolve files).filter
            (fun r => decide (r.timestamp = t)) =
          (files.filterMap (processOne fs resolve)).filter
            (fun r => decide (r.timestamp = t))) ∧
      (organize_images_fast fs resolve files).Pairwise
        (fun a b => a.timestamp ≤ b.timestamp) ∧
      (∀ t : τ,
        (organize_images_fast fs resolve files).filter
            (fun i => decide (i.timestamp = t)) =
          (files.filterMap (get_basic_image_info fs resolve)).filter
            (fun i => decide (i.timestamp = t))) :=
  ⟨pairwise_key_pySortByKey (fun r : ImageRecord τ => r.timestamp) _,
   fun t => filter_key_pySortByKey (fun r : ImageRecord τ => r.timestamp) t _,
   pairwise_key_pySortByKey (fun i : FastInfo τ => i.timestamp) _,
   fun t => filter_key_pySortByKey (fun i : FastInfo τ => i.timestamp) t _⟩

/-! ## Claim C5 -/

/-- Claim C5 is falsified by the code: a path whose image cannot be
decoded (`get_image_metadata` returns `None`) is not dropped — the full
organize operation still emits its record, with `metadata = none`
(`image_preview.py` appends unconditionally after the existence check;
the statistics view even renders such records as format `Unknown`).
Here `organize` over a single undecodable path returns exactly one
record, whose metadata is absent — the real resolver indeed finds no
timestamp in the name `photo.png`, as the first conjunct checks. -/
theorem organize_full_keeps_null_metadata_counterexample :
    extract_timestamp_from_filename "photo.png" = none ∧
      organize_images_by_timestamp fsUndecodable resolveNone ["photo.png"] =
        [⟨"photo.png", "photo.png", 0, TimeSource.mtime, none⟩] ∧
      ∃ r ∈ organize_images_by_timestamp fsUndecodable resolveNone ["photo.png"],
        r.metadata = none :=
  ⟨by decide, by decide,
   ⟨⟨"photo.png", "photo.png", 0, TimeSource.mtime, none⟩, by decide, rfl⟩⟩

/-- Claim C5 (amended): when a path exists but its image cannot be
decoded, the full organize operation keeps the record, with
`metadata = none`; its timestamp comes from the filename cascade or the
filesystem mtime, never from EXIF. -/
theorem organize_full_keeps_undecodable_record [LinearOrder τ]
    (fs : String → Option (FSEntry τ)) (resolve : String → Option τ)
    (files : List String) (p : String) (e : FSEntry τ)
    (hp : p ∈ files) (hfs : fs p = some e) (himg : e.image = none) :
    ∃ r ∈ organize_images_by_timestamp fs resolve files,
      r.path = p ∧ r.metadata = none ∧ r.time_source ≠ TimeSource.exif := by
  have hmd : get_image_metadata fs p = none := by
    simp [get_image_metadata, hfs, himg]
  cases hres : resolve (basename p) with
  | some t =>
    refine ⟨⟨p, basename p, t, .filename, none⟩, ?_, rfl, rfl, by simp⟩
    refine (mem_pySortByKey _ _ _).2 (List.mem_filterMap.2 ⟨p, hp, ?_⟩)
    unfold processOne
    rw [hfs, hres, hmd]
  | none =>
    refine ⟨⟨p, basename p, e.mtime, .mtime, none⟩, ?_, rfl, rfl, by simp⟩
    refine (mem_pySortByKey _ _ _).2 (List.mem_filterMap.2 ⟨p, hp, ?_⟩)
    unfold processOne
    rw [hfs, hres, hmd]
    rfl

theorem organize_full_keeps_undecodable_record_witness :
    ("photo.png" ∈ (["photo.png"] : List String) ∧
        fsUndecodable "photo.png" = some ⟨0, 7, none⟩ ∧
        (⟨0, 7, none⟩ : FSEntry ℤ).image = none) ∧
      ∃ r ∈ organize_images_by_timestamp fsUndecodable resolveNone ["photo.png"],
        r.path = "photo.png" ∧ r.metadata = none ∧
          r.time_source ≠ TimeSource.exif :=
  ⟨⟨by decide, by decide, rfl⟩,
   organize_full_keeps_undecodable_record fsUndecodable resolveNone
     ["photo.png"] "photo.png" ⟨0, 7, none⟩ (by decide) (by decide) rfl⟩

/-! ## Claim C6 -/

/-- Claim C6: neither organize variant aborts on a missing path — every
emitted record's path exists on the filesystem, and organize over one
existing path plus one non-existent path returns exactly one record,
the one for the existing path. -/
theorem organize_skips_missing_paths [LinearOrder τ]
    (fs : String → Option (FSEntry τ)) (resolve : String → Option τ) :
    (∀ (files : List String) (r : ImageRecord τ),
        r ∈ organize_images_by_timestamp fs resolve files →
        (fs r.path).isSome = true) ∧
      (∀ (files : List String) (i : FastInfo τ),
        i ∈ organize_images_fast fs resolve files →
        (fs i.path).isSome = true) ∧
      (∀ (p q : String) (e : FSEntry τ), fs p = some e → fs q = none →
        ∃ r, organize_images_by_timestamp fs resolve [p, q] = [r] ∧
          r.path = p) ∧
      (∀ (p q : String) (e : FSEntry τ), fs p = some e → fs q = none →
        ∃ i, organize_images_fast fs resolve [p, q] = [i] ∧ i.path = p) := by
  refine ⟨?_, ?_, ?_, ?_⟩
  · intro files r hr
    obtain ⟨p, _, hpr⟩ :=
      List.mem_filterMap.1 ((mem_pySortByKey _ _ _).1 hr)
    obtain ⟨e, hfs, hpath, _⟩ := processOne_eq_some_spec fs resolve p r hpr
    rw [hpath, hfs]
    rfl
  · intro files i hi
    obtain ⟨p, _, hpi⟩ :=
      List.mem_filterMap.1 ((mem_pySortByKey _ _ _).1 hi)
    obtain ⟨e, hfs, hpath⟩ := get_basic_image_info_eq_some_path fs resolve p i hpi
    rw [hpath, hfs]
    rfl
  · intro p q e hp hq
    obtain ⟨r, hr, hrp⟩ := processOne_isSome_of_exists fs resolve p e hp
    have hqnone : processOne fs resolve q = none := by
      unfold processOne
      rw [hq]
    refine ⟨r, ?_, hrp⟩
    unfold organize_images_by_timestamp
    rw [List.filterMap_cons, hr, List.filterMap_cons, hqnone, List.filterMap_nil]
    rfl
  · intro p q e hp hq
    obtain ⟨i, hi, hip⟩ := get_basic_image_info_isSome_of_exists fs resolve p e hp
    have hqnone : get_basic_image_info fs resolve q = none := by
      unfold get_basic_image_info
      rw [hq]
    refine ⟨i, ?_, hip⟩
    unfold organize_images_fast
    rw [List.filterMap_cons, hi, List.filterMap_cons, hqnone, List.filterMap_nil]
    rfl

theorem organize_skips_missing_paths_witness :
    (fsUndecodable "photo.png" = some ⟨0, 7, none⟩ ∧
        fsUndecodable "/does/not/exist.png" = none) ∧
      (∃ r,
        organize_images_by_timestamp fsUndecodable resolveNone
            ["photo.png", "/does/not/exist.png"] = [r] ∧
          r.path = "photo.png") :=
  ⟨⟨by decide, by decide⟩,
   (organize_skips_missing_paths fsUndecodable resolveNone).2.2.1 "photo.png"
     "/does/not/exist.png" ⟨0, 7, none⟩ (by decide) (by decide)⟩

theorem date14_invalid_falls_through_to_date8_witness :
    reSearch matchDate14At ("20240315_250000" : String).data =
        some (2024, 3, 15, 25, 0, 0) ∧
      pyDatetimeCivil 2024 3 15 25 0 0 = none ∧
      reSearch matchDate8At ("20240315_250000" : String).data = some (2024, 3, 15) ∧
      extract_timestamp_from_filename "20240315_250000" =
        some (.civil 2024 3 15 0 0 0) :=
  ⟨by decide, by decide, by decide,
   (date14_invalid_falls_through_to_date8 "20240315_250000" (by decide) (by decide)
      (by decide) 2024 3 15 25 0 0 (by decide) (by decide)).2.1 2024 3 15
      (by decide) (by decide)⟩

/-! ## Dictionary, key, and argmin helper lemmas for the cache -/

theorem string_append_left_cancel (ns p q : String) (h : ns ++ p = ns ++ q) :
    p = q := by
  have h2 := congrArg String.data h
  rw [String.data_append, String.data_append] at h2
  exact String.ext (List.append_cancel_left h2)

theorem thumb_key_ne_preview_key (p : String) :
    ("thumb_" ++ p : String) ≠ "preview_" ++ p := by
  intro h
  have h2 := congrArg String.data h
  rw [String.data_append, String.data_append] at h2
  have h3 : ('t' : Char) = 'p' := by
    have : ("thumb_" : String).data = ['t', 'h', 'u', 'm', 'b', '_'] := rfl
    have h4 : ("preview_" : String).data = ['p', 'r', 'e', 'v', 'i', 'e', 'w', '_'] :=
      rfl
    rw [this, h4] at h2
    exact (List.cons.injEq _ _ _ _ ▸ h2).1
  exact absurd h3 (by decide)

theorem dictGet_eq_none_iff (d : List (String × β)) (k : String) :
    dictGet d k = none ↔ ∀ kv ∈ d, kv.1 ≠ k := by
  unfold dictGet
  rw [Option.map_eq_none']
  constructor
  · intro h kv hkv
    have := List.find?_eq_none.1 h kv hkv
    simpa using this
  · intro h
    exact List.find?_eq_none.2 fun kv hkv => by simpa using h kv hkv

theorem dictGet_isSome_iff (d : List (String × β)) (k : String) :
    (dictGet d k).isSome = true ↔ ∃ kv ∈ d, kv.1 = k := by
  unfold dictGet
  rw [Option.isSome_map']
  constructor
  · intro h
    obtain ⟨kv, hkv, hp⟩ := List.find?_isSome.1 h
    exact ⟨kv, hkv, by simpa using hp⟩
  · intro ⟨kv, hkv, hp⟩
    exact List.find?_isSome.2 ⟨kv, hkv, by simpa using hp⟩

theorem dictAny_eq_false_iff (d : List (String × β)) (k : String) :
    d.any (fun kv => kv.1 == k) = false ↔ ∀ kv ∈ d, kv.1 ≠ k := by
  rw [List.any_eq_false]
  constructor
  · intro h kv hkv
    simpa using h kv hkv
  · intro h kv hkv
    simpa using h kv hkv

theorem dictSet_append_of_forall_ne (d : List (String × β)) (k : String) (v : β)
    (h : ∀ kv ∈ d, kv.1 ≠ k) : dictSet d k v = d ++ [(k, v)] := by
  unfold dictSet
  rw [if_neg]
  rw [Bool.not_eq_true]
  exact (dictAny_eq_false_iff d k).2 h

theorem dictSet_keys_of_mem (d : List (String × β)) (k : String) (v : β)
    (h : ∃ kv ∈ d, kv.1 = k) : (dictSet d k v).map (·.1) = d.map (·.1) := by
  unfold dictSet
  rw [if_pos]
  · rw [List.map_map]
    apply List.map_congr_left
    intro kv _
    by_cases hk : kv.1 = k
    · simp [hk]
    · simp [hk]
  · obtain ⟨kv, hkv, hk⟩ := h
    exact List.any_eq_true.2 ⟨kv, hkv, by simpa using hk⟩

theorem map_fst_dictDel (d : List (String × β)) (k : String) :
    (dictDel d k).map (·.1) = (d.map (·.1)).filter (fun x => !(x == k)) := by
  unfold dictDel
  induction d with
  | nil => rfl
  | cons kv d ih =>
    by_cases hk : kv.1 = k <;>
      simp [List.filter_cons, hk, ih]

theorem dictDel_of_forall_ne (d : List (String × β)) (k : String)
    (h : ∀ kv ∈ d, kv.1 ≠ k) : dictDel d k = d := by
  unfold dictDel
  apply List.filter_eq_self.2
  intro kv hkv
  simpa using h kv hkv

theorem dictDel_length_lt (d : List (String × β)) (k : String)
    (h : ∃ kv ∈ d, kv.1 = k) : (dictDel d k).length < d.length := by
  unfold dictDel
  apply List.length_filter_lt_length_iff_exists.2
  obtain ⟨kv, hkv, hk⟩ := h
  exact ⟨kv, hkv, by simpa using hk⟩

theorem dictGet_append_of_left_none (d1 d2 : List (String × β)) (k : String)
    (h : dictGet d1 k = none) : dictGet (d1 ++ d2) k = dictGet d2 k := by
  unfold dictGet at h ⊢
  rw [List.find?_append]
  rw [Option.map_eq_none'] at h
  rw [h]
  rfl

theorem dictGet_mem_of_not_keys (d : List (String × β)) (k : String)
    (h : ∀ kv ∈ d, kv.1 ≠ k) : dictGet d k = none :=
  (dictGet_eq_none_iff d k).2 h

theorem argminFirst_mem (d : List (String × ℕ)) (k : String)
    (h : argminFirst d = some k) : ∃ kv ∈ d, kv.1 = k := by
  cases d with
  | nil => exact absurd h (by simp [argminFirst])
  | cons kv0 rest =>
    have hfold : ∀ (l : List (String × ℕ)) (b : String × ℕ),
        l.foldl (fun best x => if x.2 < best.2 then x else best) b ∈ b :: l := by
      intro l
      induction l with
      | nil => intro b; simp
      | cons x l ih =>
        intro b
        have h2 := ih (if x.2 < b.2 then x else b)
        simp only [List.foldl_cons]
        by_cases hc : x.2 < b.2 <;> simp [hc] at h2 ⊢ <;> tauto
    injection h with h'
    subst h'
    obtain h2 := hfold rest kv0
    exact ⟨_, h2, rfl⟩

theorem foldl_min_stay (l : List (String × ℕ)) :
    ∀ (b : String × ℕ), (∀ kv ∈ l, b.2 ≤ kv.2) →
      l.foldl (fun best x => if x.2 < best.2 then x else best) b = b := by
  induction l with
  | nil => intro b _; rfl
  | cons x l ih =>
    intro b hb
    have hx : b.2 ≤ x.2 := hb x (by simp)
    simp only [List.foldl_cons, if_neg (not_lt.2 hx)]
    exact ih b fun kv hkv => hb kv (List.mem_cons_of_mem _ hkv)

theorem argminFirst_head (k0 : String) (v0 : ℕ) (rest : List (String × ℕ))
    (h : ∀ kv ∈ rest, v0 ≤ kv.2) :
    argminFirst ((k0, v0) :: rest) = some k0 := by
  have h1 : argminFirst ((k0, v0) :: rest) =
      some (rest.foldl (fun best x => if x.2 < best.2 then x else best) (k0, v0)).1 :=
    rfl
  rw [h1, foldl_min_stay rest (k0, v0) h]

theorem argminFirst_isSome_of_ne_nil (d : List (String × ℕ)) (h : d ≠ []) :
    (argminFirst d).isSome = true := by
  cases d with
  | nil => exact absurd rfl h
  | cons kv rest => rfl

/-! ## Cache behavior lemmas -/

theorem thumbEntries_cons_of_some (dec : String → Option I) (q : String)
    (qs : List String) (i : I) (hi : dec q = some i) :
    thumbEntries dec (q :: qs) = ("thumb_" ++ q, i) :: thumbEntries dec qs :=
  List.filterMap_cons_some (by rw [hi]; rfl)

theorem thumbEntries_length (dec : String → Option I) :
    ∀ qs : List String, (∀ q ∈ qs, (dec q).isSome = true) →
      (thumbEntries dec qs).length = qs.length := by
  intro qs
  induction qs with
  | nil => intro _; rfl
  | cons q qs ih =>
    intro h
    obtain ⟨i, hi⟩ := Option.isSome_iff_exists.1 (h q (by simp))
    rw [thumbEntries_cons_of_some dec q qs i hi, List.length_cons,
      ih fun q' hq' => h q' (List.mem_cons_of_mem _ hq'), List.length_cons]

theorem mem_thumbEntries_key (dec : String → Option I) :
    ∀ (qs : List String) (kv : String × I), kv ∈ thumbEntries dec qs →
      ∃ q ∈ qs, kv.1 = "thumb_" ++ q := by
  intro qs kv h
  obtain ⟨q, hq, hf⟩ := List.mem_filterMap.1 h
  cases hdq : dec q with
  | none => rw [hdq] at hf; exact absurd hf (by simp)
  | some i =>
    rw [hdq] at hf
    simp only [Option.map_some'] at hf
    injection hf with hf'
    exact ⟨q, hq, by rw [← hf']⟩

theorem dictGet_thumbEntries_of_not_mem (dec : String → Option I)
    (qs : List String) (q : String) (hq : q ∉ qs) :
    dictGet (thumbEntries dec qs) ("thumb_" ++ q) = none := by
  apply dictGet_mem_of_not_keys
  intro kv hkv
  obtain ⟨q', hq', hk⟩ := mem_thumbEntries_key dec qs kv hkv
  rw [hk]
  intro hcontra
  have hqq : q' = q := string_append_left_cancel _ _ _ hcontra
  exact hq (hqq ▸ hq')

theorem exists_thumbEntries_key (dec : String → Option I) (qs : List String)
    (q : String) (hq : q ∈ qs) (hdec : ∀ q' ∈ qs, (dec q').isSome = true) :
    ∃ kv ∈ thumbEntries dec qs, kv.1 = "thumb_" ++ q := by
  obtain ⟨i, hi⟩ := Option.isSome_iff_exists.1 (hdec q hq)
  refine ⟨("thumb_" ++ q, i), List.mem_filterMap.2 ⟨q, hq, ?_⟩, rfl⟩
  rw [hi]
  rfl

theorem mem_stamps_key :
    ∀ (t0 : ℕ) (qs : List String) (kv : String × ℕ), kv ∈ stamps t0 qs →
      ∃ q ∈ qs, kv.1 = "thumb_" ++ q := by
  intro t0 qs
  induction qs generalizing t0 with
  | nil => intro kv h; simp [stamps] at h
  | cons q qs ih =>
    intro kv h
    rw [show stamps t0 (q :: qs) = ("thumb_" ++ q, t0) :: stamps (t0 + 1) qs from
      rfl] at h
    rcases List.mem_cons.1 h with rfl | h'
    · exact ⟨q, by simp, rfl⟩
    · obtain ⟨q', hq', hk⟩ := ih (t0 + 1) kv h'
      exact ⟨q', List.mem_cons_of_mem _ hq', hk⟩

theorem dictGet_stamps_of_not_mem (t0 : ℕ) (qs : List String) (q : String)
    (hq : q ∉ qs) : dictGet (stamps t0 qs) ("thumb_" ++ q) = none := by
  apply dictGet_mem_of_not_keys
  intro kv hkv
  obtain ⟨q', hq', hk⟩ := mem_stamps_key t0 qs kv hkv
  rw [hk]
  intro hcontra
  have hqq : q' = q := string_append_left_cancel _ _ _ hcontra
  exact hq (hqq ▸ hq')

/-- The step taken by `getCached` on a fresh decodable path while
below capacity: no eviction, the entry and its access time are appended. -/
theorem getCached_fresh (ns : String) (dec : String → Option I) (c : ImageCache I)
    (p : String) (i : I)
    (hc : dictGet c.cache (ns ++ p) = none)
    (ha : dictGet c.access_time (ns ++ p) = none)
    (hdec : dec p = some i) (hlen : c.cache.length < c.max_size) :
    getCached ns dec c p =
      (some i, ⟨c.max_size, c.cache ++ [(ns ++ p, i)],
        c.access_time ++ [(ns ++ p, c.clock)], c.clock + 1⟩) := by
  unfold getCached evict_oldest
  dsimp only
  rw [hc]
  dsimp only
  rw [hdec]
  dsimp only
  rw [if_neg (not_le.2 hlen)]
  dsimp only
  rw [dictSet_append_of_forall_ne _ _ _ ((dictGet_eq_none_iff _ _).1 hc),
    dictSet_append_of_forall_ne _ _ _ ((dictGet_eq_none_iff _ _).1 ha)]

/-- The step taken by `getCached` on a fresh decodable path at
capacity: the least-recently-used key `k` is removed from both dicts,
then the new entry is appended. -/
theorem getCached_evict (ns : String) (dec : String → Option I) (c : ImageCache I)
    (p : String) (i : I) (k : String)
    (hc : dictGet c.cache (ns ++ p) = none)
    (ha : dictGet c.access_time (ns ++ p) = none)
    (hdec : dec p = some i)
    (hcap : c.max_size ≤ c.cache.length)
    (hk : argminFirst c.access_time = some k) :
    getCached ns dec c p =
      (some i, ⟨c.max_size, dictDel c.cache k ++ [(ns ++ p, i)],
        dictDel c.access_time k ++ [(ns ++ p, c.clock)], c.clock + 1⟩) := by
  have hc2 : ∀ kv ∈ dictDel c.cache k, kv.1 ≠ ns ++ p := fun kv hkv =>
    (dictGet_eq_none_iff _ _).1 hc kv (List.mem_filter.1 hkv).1
  have ha2 : ∀ kv ∈ dictDel c.access_time k, kv.1 ≠ ns ++ p := fun kv hkv =>
    (dictGet_eq_none_iff _ _).1 ha kv (List.mem_filter.1 hkv).1
  unfold getCached evict_oldest
  dsimp only
  rw [hc]
  dsimp only
  rw [hdec]
  dsimp only
  rw [if_pos hcap, hk]
  dsimp only
  rw [dictSet_append_of_forall_ne _ _ _ hc2, dictSet_append_of_forall_ne _ _ _ ha2]

/-- `runThumbs` distributes over list append. -/
theorem runThumbs_append (dec : String → Option I) (c : ImageCache I)
    (l1 l2 : List String) :
    runThumbs dec c (l1 ++ l2) = runThumbs dec (runThumbs dec c l1) l2 :=
  List.foldl_append _ _ _ _

/-- Filling a cache with fresh decodable paths while within capacity
appends their entries in call order, with strictly increasing access
times starting at the current clock. -/
theorem runThumbs_fill (dec : String → Option I) :
    ∀ (qs : List String) (c : ImageCache I),
      qs.Nodup → (∀ q ∈ qs, (dec q).isSome = true) →
      (∀ q ∈ qs, dictGet c.cache ("thumb_" ++ q) = none) →
      (∀ q ∈ qs, dictGet c.access_time ("thumb_" ++ q) = none) →
      c.cache.length + qs.length ≤ c.max_size →
      runThumbs dec c qs =
        ⟨c.max_size, c.cache ++ thumbEntries dec qs,
          c.access_time ++ stamps c.clock qs, c.clock + qs.length⟩ := by
  intro qs
  induction qs with
  | nil =>
    intro c _ _ _ _ _
    show c = _
    cases c
    simp [thumbEntries, stamps]
  | cons q qs ih =>
    intro c hnd hdec hcach hacc hlen
    obtain ⟨i, hi⟩ := Option.isSome_iff_exists.1 (hdec q (by simp))
    have hlen' : c.cache.length < c.max_size := by
      simp only [List.length_cons] at hlen
      omega
    have hstep := getCached_fresh "thumb_" dec c q i (hcach q (by simp))
      (hacc q (by simp)) hi hlen'
    have hq_not : q ∉ qs := (List.nodup_cons.1 hnd).1
    show runThumbs dec (getCached "thumb_" dec c q).2 qs = _
    rw [hstep]
    rw [ih _ (List.nodup_cons.1 hnd).2
      (fun q' hq' => hdec q' (List.mem_cons_of_mem _ hq'))
      (fun q' hq' => by
        dsimp only
        rw [dictGet_append_of_left_none _ _ _
          (hcach q' (List.mem_cons_of_mem _ hq'))]
        apply dictGet_mem_of_not_keys
        intro kv hkv
        rw [List.mem_singleton.1 hkv]
        intro hcontra
        exact hq_not
          ((string_append_left_cancel _ _ _ hcontra) ▸ hq')
      )
      (fun q' hq' => by
        dsimp only
        rw [dictGet_append_of_left_none _ _ _
          (hacc q' (List.mem_cons_of_mem _ hq'))]
        apply dictGet_mem_of_not_keys
        intro kv hkv
        rw [List.mem_singleton.1 hkv]
        intro hcontra
        exact hq_not
          ((string_append_left_cancel _ _ _ hcontra) ▸ hq')
      )
      (by
        dsimp only
        rw [List.length_append]
        simp only [List.length_cons] at hlen
        simp only [List.length_singleton]
        omega)]
    dsimp only
    rw [thumbEntries_cons_of_some dec q qs i hi,
      show stamps c.clock (q :: qs) = ("thumb_" ++ q, c.clock) :: stamps (c.clock + 1) qs
        from rfl]
    simp [List.append_assoc]
    omega

theorem dictDel_cons_head (d : List (String × β)) (k : String) (v : β) :
    dictDel ((k, v) :: d) k = dictDel d k := by
  simp [dictDel, List.filter_cons]

/-! ## Claim C7 -/

/-- Claim C7: starting from an empty cache of capacity `N ≥ 1`, calling
`get_thumbnail` on `N + 1` distinct decodable paths in sequence evicts
exactly the entry of the first path — its key is gone while every later
path's key is still cached — and a subsequent `get_thumbnail` on the
first path is a miss that performs a fresh decode (its result is the
decoder's output, not a cached value).  Access time is refreshed on
hits as well as inserts (`getCached`'s hit branch).  Thumbnail and
preview entries live in one store under distinct namespaced keys and
share the single capacity budget: with capacity 1, a `get_preview` on
the same path evicts the thumbnail entry. -/
theorem cache_lru_evicts_least_recent (I : Type) (decode : String → Option I)
    (N : ℕ) (hN : 1 ≤ N) (p0 : String) (rest : List String)
    (hlen : rest.length = N) (hnd : (p0 :: rest).Nodup)
    (hdec : ∀ p ∈ p0 :: rest, (decode p).isSome = true) :
    dictGet (runThumbs decode (ImageCache.init I N) (p0 :: rest)).cache
        ("thumb_" ++ p0) = none ∧
      (∀ p ∈ rest,
        (dictGet (runThumbs decode (ImageCache.init I N) (p0 :: rest)).cache
            ("thumb_" ++ p)).isSome = true) ∧
      (get_thumbnail decode (runThumbs decode (ImageCache.init I N) (p0 :: rest))
          p0).1 = decode p0 ∧
      (∀ p : String, ("thumb_" ++ p : String) ≠ "preview_" ++ p) ∧
      (∀ (decT decP : String → Option I) (q : String) (iT iP : I),
        decT q = some iT → decP q = some iP →
        dictGet
            (get_preview decP (get_thumbnail decT (ImageCache.init I 1) q).2
              q).2.cache ("thumb_" ++ q) = none ∧
          dictGet
            (get_preview decP (get_thumbnail decT (ImageCache.init I 1) q).2
              q).2.cache ("preview_" ++ q) = some iP) := by
  rcases List.eq_nil_or_concat rest with rfl | ⟨front, qN, hconcat⟩
  · exact absurd hlen (by simp; omega)
  rw [List.concat_eq_append] at hconcat
  subst hconcat
  -- name the paths and membership facts
  have hfl : front.length + 1 = N := by simpa using hlen
  obtain ⟨hp0_not, hrest_nd⟩ := List.nodup_cons.1 hnd
  obtain ⟨hfront_nd, _, hdisj⟩ := List.nodup_append.1 hrest_nd
  have hqN_front : qN ∉ front := fun hmem => hdisj hmem (by simp)
  have hp0_front : p0 ∉ front := fun hmem => hp0_not (List.mem_append_left _ hmem)
  have hp0_qN : p0 ≠ qN := fun h =>
    hp0_not (List.mem_append_right _ (by simp [h]))
  have hqN_pf : qN ∉ p0 :: front := by
    intro hmem
    rcases List.mem_cons.1 hmem with h | h
    · exact hp0_qN h.symm
    · exact hqN_front h
  have hnd_pf : (p0 :: front).Nodup := List.nodup_cons.2 ⟨hp0_front, hfront_nd⟩
  have hdec_pf : ∀ p ∈ p0 :: front, (decode p).isSome = true := by
    intro p hp
    apply hdec
    rcases List.mem_cons.1 hp with rfl | h
    · simp
    · exact List.mem_cons_of_mem _ (List.mem_append_left _ h)
  obtain ⟨i0, hi0⟩ := Option.isSome_iff_exists.1 (hdec p0 (by simp))
  obtain ⟨iN, hiN⟩ := Option.isSome_iff_exists.1
    (hdec qN (List.mem_cons_of_mem _ (List.mem_append_right _ (by simp))))
  -- fill the first N paths
  have hfill := runThumbs_fill decode (p0 :: front) (ImageCache.init I N) hnd_pf
    hdec_pf (fun q _ => rfl) (fun q _ => rfl)
    (by simp [ImageCache.init]; omega)
  have hsplit :
      runThumbs decode (ImageCache.init I N) (p0 :: (front ++ [qN])) =
        (get_thumbnail decode (runThumbs decode (ImageCache.init I N) (p0 :: front))
          qN).2 := by
    rw [show p0 :: (front ++ [qN]) = (p0 :: front) ++ [qN] from rfl,
      runThumbs_append]
    rfl
  -- the intermediate full cache
  have hent : thumbEntries decode (p0 :: front) =
      ("thumb_" ++ p0, i0) :: thumbEntries decode front :=
    thumbEntries_cons_of_some decode p0 front i0 hi0
  have hstamp : stamps 0 (p0 :: front) =
      ("thumb_" ++ p0, 0) :: stamps 1 front := rfl
  have hentlen : (thumbEntries decode (p0 :: front)).length = N := by
    rw [thumbEntries_length decode (p0 :: front) hdec_pf]
    simpa using hfl
  have hfrontlen : (thumbEntries decode front).length = front.length :=
    thumbEntries_length decode front fun q hq =>
      hdec_pf q (List.mem_cons_of_mem _ hq)
  -- the N+1-th call evicts the first key
  have hstepN := getCached_evict "thumb_" decode
    ⟨N, thumbEntries decode (p0 :: front), stamps 0 (p0 :: front),
      0 + (p0 :: front).length⟩ qN iN ("thumb_" ++ p0)
    (dictGet_thumbEntries_of_not_mem decode (p0 :: front) qN hqN_pf)
    (dictGet_stamps_of_not_mem 0 (p0 :: front) qN hqN_pf)
    hiN (le_of_eq hentlen.symm)
    (by
      rw [hstamp]
      exact argminFirst_head _ _ _ fun kv _ => Nat.zero_le _)
  have hdelc : dictDel (thumbEntries decode (p0 :: front)) ("thumb_" ++ p0) =
      thumbEntries decode front := by
    rw [hent, dictDel_cons_head]
    apply dictDel_of_forall_ne
    intro kv hkv
    obtain ⟨q', hq', hk⟩ := mem_thumbEntries_key decode front kv hkv
    rw [hk]
    intro hcontra
    exact hp0_front ((string_append_left_cancel _ _ _ hcontra) ▸ hq')
  have hdela : dictDel (stamps 0 (p0 :: front)) ("thumb_" ++ p0) =
      stamps 1 front := by
    rw [hstamp, dictDel_cons_head]
    apply dictDel_of_forall_ne
    intro kv hkv
    obtain ⟨q', hq', hk⟩ := mem_stamps_key 1 front kv hkv
    rw [hk]
    intro hcontra
    exact hp0_front ((string_append_left_cancel _ _ _ hcontra) ▸ hq')
  -- the final state after the N+1 calls
  have hfin : runThumbs decode (ImageCache.init I N) (p0 :: (front ++ [qN])) =
      ⟨N, thumbEntries decode front ++ [("thumb_" ++ qN, iN)],
        stamps 1 front ++ [("thumb_" ++ qN, 0 + (p0 :: front).length)],
        0 + (p0 :: front).length + 1⟩ := by
    rw [hsplit, hfill]
    show (getCached "thumb_" decode _ qN).2 = _
    rw [show (ImageCache.init I N).max_size = N from rfl,
      show (ImageCache.init I N).cache = ([] : List (String × I)) from rfl,
      show (ImageCache.init I N).access_time = ([] : List (String × ℕ)) from rfl,
      show (ImageCache.init I N).clock = 0 from rfl]
    rw [List.nil_append, List.nil_append, hstepN]
    rw [hdelc, hdela]
  -- conclusion 1: the first key is gone
  have hc1 : dictGet (runThumbs decode (ImageCache.init I N)
      (p0 :: (front ++ [qN]))).cache ("thumb_" ++ p0) = none := by
    rw [hfin]
    show dictGet (thumbEntries decode front ++ [("thumb_" ++ qN, iN)])
      ("thumb_" ++ p0) = none
    rw [dictGet_append_of_left_none _ _ _
      (dictGet_thumbEntries_of_not_mem decode front p0 hp0_front)]
    apply dictGet_mem_of_not_keys
    intro kv hkv
    rw [List.mem_singleton.1 hkv]
    intro hcontra
    exact hp0_qN ((string_append_left_cancel _ _ _ hcontra) ▸ rfl)
  -- conclusion 3 prerequisite: the final access map is missing p0 too
  have ha1 : dictGet (runThumbs decode (ImageCache.init I N)
      (p0 :: (front ++ [qN]))).access_time ("thumb_" ++ p0) = none := by
    rw [hfin]
    show dictGet (stamps 1 front ++ [("thumb_" ++ qN, 0 + (p0 :: front).length)])
      ("thumb_" ++ p0) = none
    rw [dictGet_append_of_left_none _ _ _
      (dictGet_stamps_of_not_mem 1 front p0 hp0_front)]
    apply dictGet_mem_of_not_keys
    intro kv hkv
    rw [List.mem_singleton.1 hkv]
    intro hcontra
    exact hp0_qN ((string_append_left_cancel _ _ _ hcontra) ▸ rfl)
  refine ⟨hc1, ?_, ?_, thumb_key_ne_preview_key, ?_⟩
  · -- conclusion 2: every later key is still present
    intro p hp
    rw [hfin]
    show (dictGet (thumbEntries decode front ++ [("thumb_" ++ qN, iN)])
      ("thumb_" ++ p)).isSome = true
    apply (dictGet_isSome_iff _ _).2
    rcases List.mem_append.1 hp with hpf | hpq
    · obtain ⟨kv, hkv, hk⟩ := exists_thumbEntries_key decode front p hpf
        fun q' hq' => hdec_pf q' (List.mem_cons_of_mem _ hq')
      exact ⟨kv, List.mem_append_left _ hkv, hk⟩
    · rw [List.mem_singleton.1 hpq]
      exact ⟨("thumb_" ++ qN, iN), List.mem_append_right _ (by simp), rfl⟩
  · -- conclusion 3: a repeat call on the first path decodes afresh
    have hcaplen : (runThumbs decode (ImageCache.init I N)
        (p0 :: (front ++ [qN]))).cache.length = N := by
      rw [hfin]
      show (thumbEntries decode front ++ [("thumb_" ++ qN, iN)]).length = N
      rw [List.length_append, hfrontlen, List.length_singleton]
      omega
    have hne : (runThumbs decode (ImageCache.init I N)
        (p0 :: (front ++ [qN]))).access_time ≠ [] := by
      rw [hfin]
      show stamps 1 front ++ [("thumb_" ++ qN, 0 + (p0 :: front).length)] ≠ []
      simp
    obtain ⟨k', hk'⟩ := Option.isSome_iff_exists.1
      (argminFirst_isSome_of_ne_nil _ hne)
    have hmax : (runThumbs decode (ImageCache.init I N)
        (p0 :: (front ++ [qN]))).max_size = N := by rw [hfin]
    have hstep := getCached_evict "thumb_" decode
      (runThumbs decode (ImageCache.init I N) (p0 :: (front ++ [qN]))) p0 i0 k'
      hc1 ha1 hi0 (by rw [hmax, hcaplen]) hk'
    show (getCached "thumb_" decode _ p0).1 = decode p0
    rw [hstep, hi0]
  · -- shared capacity budget, namespaced keys
    intro decT decP q iT iP hiT hiP
    have hstep1 := getCached_fresh "thumb_" decT (ImageCache.init I 1) q iT rfl rfl
      hiT (by simp [ImageCache.init])
    have hkeyne : ∀ kv ∈ [("thumb_" ++ q, iT)], kv.1 ≠ "preview_" ++ q := by
      intro kv hkv
      rw [List.mem_singleton.1 hkv]
      intro hcontra
      exact thumb_key_ne_preview_key q hcontra
    have hkeyne' : ∀ kv ∈ [(("thumb_" ++ q : String), (0 : ℕ))],
        kv.1 ≠ "preview_" ++ q := by
      intro kv hkv
      rw [List.mem_singleton.1 hkv]
      intro hcontra
      exact thumb_key_ne_preview_key q hcontra
    have hstep2 := getCached_evict "preview_" decP
      ⟨1, [("thumb_" ++ q, iT)], [("thumb_" ++ q, 0)], 1⟩ q iP ("thumb_" ++ q)
      (dictGet_mem_of_not_keys _ _ hkeyne)
      (dictGet_mem_of_not_keys _ _ hkeyne')
      hiP (by simp) rfl
    have hfin2 : (get_preview decP (get_thumbnail decT (ImageCache.init I 1) q).2
        q).2 = ⟨1, dictDel [("thumb_" ++ q, iT)] ("thumb_" ++ q) ++
          [("preview_" ++ q, iP)],
        dictDel [(("thumb_" ++ q : String), (0 : ℕ))] ("thumb_" ++ q) ++
          [("preview_" ++ q, 1)], 2⟩ := by
      show (getCached "preview_" decP (getCached "thumb_" decT
        (ImageCache.init I 1) q).2 q).2 = _
      rw [hstep1]
      rw [show ((ImageCache.init I 1).max_size : ℕ) = 1 from rfl,
        show (ImageCache.init I 1).cache = ([] : List (String × I)) from rfl,
        show (ImageCache.init I 1).access_time = ([] : List (String × ℕ)) from rfl,
        show (ImageCache.init I 1).clock = 0 from rfl]
      rw [List.nil_append, List.nil_append, hstep2]
    have hdelq : dictDel [("thumb_" ++ q, iT)] ("thumb_" ++ q) =
        ([] : List (String × I)) := by
      rw [show ([("thumb_" ++ q, iT)] : List (String × I)) =
        ("thumb_" ++ q, iT) :: [] from rfl, dictDel_cons_head]
      rfl
    have hdelq' : dictDel [(("thumb_" ++ q : String), (0 : ℕ))] ("thumb_" ++ q) =
        ([] : List (String × ℕ)) := by
      rw [show ([(("thumb_" ++ q : String), (0 : ℕ))] : List (String × ℕ)) =
        (("thumb_" ++ q : String), (0 : ℕ)) :: [] from rfl, dictDel_cons_head]
      rfl
    rw [hfin2, hdelq, hdelq', List.nil_append, List.nil_append]
    constructor
    · apply dictGet_mem_of_not_keys
      intro kv hkv
      rw [List.mem_singleton.1 hkv]
      intro hcontra
      exact thumb_key_ne_preview_key q hcontra.symm
    · simp [dictGet]

theorem cache_lru_evicts_least_recent_witness :
    (1 ≤ 1 ∧ (["b"] : List String).length = 1 ∧
        (("a" : String) :: ["b"]).Nodup ∧
        (∀ p ∈ ("a" : String) :: ["b"], (someUnitDecode p).isSome = true)) ∧
      (dictGet (runThumbs someUnitDecode (ImageCache.init Unit 1)
            ("a" :: ["b"])).cache ("thumb_" ++ "a") = none ∧
        (∀ p ∈ (["b"] : List String),
          (dictGet (runThumbs someUnitDecode (ImageCache.init Unit 1)
              ("a" :: ["b"])).cache ("thumb_" ++ p)).isSome = true) ∧
        (get_thumbnail someUnitDecode
            (runThumbs someUnitDecode (ImageCache.init Unit 1) ("a" :: ["b"]))
            "a").1 = someUnitDecode "a" ∧
        (∀ p : String, ("thumb_" ++ p : String) ≠ "preview_" ++ p) ∧
        (∀ (decT decP : String → Option Unit) (q : String) (iT iP : Unit),
          decT q = some iT → decP q = some iP →
          dictGet
              (get_preview decP (get_thumbnail decT (ImageCache.init Unit 1) q).2
                q).2.cache ("thumb_" ++ q) = none ∧
            dictGet
              (get_preview decP (get_thumbnail decT (ImageCache.init Unit 1) q).2
                q).2.cache ("preview_" ++ q) = some iP)) :=
  ⟨⟨by decide, by decide, by decide, by decide⟩,
   cache_lru_evicts_least_recent Unit someUnitDecode 1 (by decide) "a" ["b"]
     (by decide) (by decide) (by decide)⟩

/-! ## Claim C10 -/

/-- One `getCached` call preserves the cache invariant: the two dicts
hold the same key sequence, the entry count stays within `max_size`,
and `max_size` is unchanged. -/
theorem getCached_inv (ns : String) (dec : String → Option I) (c : ImageCache I)
    (p : String)
    (hkeys : c.cache.map (·.1) = c.access_time.map (·.1))
    (hlen : c.cache.length ≤ c.max_size) :
    ((getCached ns dec c p).2.cache.map (·.1) =
        (getCached ns dec c p).2.access_time.map (·.1)) ∧
      (getCached ns dec c p).2.cache.length ≤ (getCached ns dec c p).2.max_size ∧
      (getCached ns dec c p).2.max_size = c.max_size := by
  unfold getCached evict_oldest
  dsimp only
  cases hget : dictGet c.cache (ns ++ p) with
  | some img =>
    dsimp only
    have hmem : ∃ kv ∈ c.cache, kv.1 = ns ++ p :=
      (dictGet_isSome_iff _ _).1 (by rw [hget]; rfl)
    have hmem' : ∃ kv ∈ c.access_time, kv.1 = ns ++ p := by
      obtain ⟨kv, hkv, hk⟩ := hmem
      have h1 : (ns ++ p) ∈ c.cache.map (·.1) := List.mem_map.2 ⟨kv, hkv, hk⟩
      rw [hkeys] at h1
      obtain ⟨kv', hkv', hk'⟩ := List.mem_map.1 h1
      exact ⟨kv', hkv', hk'⟩
    refine ⟨?_, hlen, rfl⟩
    rw [dictSet_keys_of_mem _ _ _ hmem']
    exact hkeys
  | none =>
    cases hdec : dec p with
    | none => exact ⟨hkeys, hlen, rfl⟩
    | some img =>
      dsimp only
      have hget_a : dictGet c.access_time (ns ++ p) = none := by
        apply dictGet_mem_of_not_keys
        intro kv hkv hk
        have h1 : (ns ++ p) ∈ c.access_time.map (·.1) :=
          List.mem_map.2 ⟨kv, hkv, hk⟩
        rw [← hkeys] at h1
        obtain ⟨kv', hkv', hk'⟩ := List.mem_map.1 h1
        exact (dictGet_eq_none_iff _ _).1 hget kv' hkv' hk'
      by_cases hcap : c.max_size ≤ c.cache.length
      · rw [if_pos hcap]
        cases hmin : argminFirst c.access_time with
        | none => exact ⟨hkeys, hlen, rfl⟩
        | some k =>
          dsimp only
          have hkmem : ∃ kv ∈ c.access_time, kv.1 = k := argminFirst_mem _ _ hmin
          have hkmemc : ∃ kv ∈ c.cache, kv.1 = k := by
            obtain ⟨kv, hkv, hk⟩ := hkmem
            have h1 : k ∈ c.access_time.map (·.1) := List.mem_map.2 ⟨kv, hkv, hk⟩
            rw [← hkeys] at h1
            obtain ⟨kv', hkv', hk'⟩ := List.mem_map.1 h1
            exact ⟨kv', hkv', hk'⟩
          have hne_c : ∀ kv ∈ dictDel c.cache k, kv.1 ≠ ns ++ p := fun kv hkv =>
            (dictGet_eq_none_iff _ _).1 hget kv (List.mem_filter.1 hkv).1
          have hne_a : ∀ kv ∈ dictDel c.access_time k, kv.1 ≠ ns ++ p :=
            fun kv hkv =>
              (dictGet_eq_none_iff _ _).1 hget_a kv (List.mem_filter.1 hkv).1
          rw [dictSet_append_of_forall_ne _ _ _ hne_c,
            dictSet_append_of_forall_ne _ _ _ hne_a]
          refine ⟨?_, ?_, rfl⟩
          · rw [List.map_append, List.map_append, map_fst_dictDel,
              map_fst_dictDel, hkeys]
            rfl
          · rw [List.length_append, List.length_singleton]
            have := dictDel_length_lt c.cache k hkmemc
            omega
      · rw [if_neg hcap]
        dsimp only
        rw [dictSet_append_of_forall_ne _ _ _ ((dictGet_eq_none_iff _ _).1 hget),
          dictSet_append_of_forall_ne _ _ _ ((dictGet_eq_none_iff _ _).1 hget_a)]
        refine ⟨?_, ?_, rfl⟩
        · rw [List.map_append, List.map_append, hkeys]
          rfl
        · rw [List.length_append, List.length_singleton]
          omega

/-- The invariant is preserved along any call sequence. -/
theorem runOps_inv (decT decP : String → Option I) :
    ∀ (ops : List (Bool × String)) (c : ImageCache I),
      c.cache.map (·.1) = c.access_time.map (·.1) →
      c.cache.length ≤ c.max_size →
      ((runOps decT decP c ops).cache.map (·.1) =
          (runOps decT decP c ops).access_time.map (·.1)) ∧
        (runOps decT decP c ops).cache.length ≤
          (runOps decT decP c ops).max_size ∧
        (runOps decT decP c ops).max_size = c.max_size := by
  intro ops
  induction ops with
  | nil => intro c h1 h2; exact ⟨h1, h2, rfl⟩
  | cons op ops ih =>
    intro c h1 h2
    obtain ⟨b, p⟩ := op
    cases b with
    | true =>
      have hstep := getCached_inv "thumb_" decT c p h1 h2
      have hrec := ih (getCached "thumb_" decT c p).2 hstep.1
        hstep.2.1
      show ((runOps decT decP (getCached "thumb_" decT c p).2 ops).cache.map
          (·.1) = _) ∧ _
      exact ⟨hrec.1, hrec.2.1, hrec.2.2.trans hstep.2.2⟩
    | false =>
      have hstep := getCached_inv "preview_" decP c p h1 h2
      have hrec := ih (getCached "preview_" decP c p).2 hstep.1
        hstep.2.1
      show ((runOps decT decP (getCached "preview_" decP c p).2 ops).cache.map
          (·.1) = _) ∧ _
      exact ⟨hrec.1, hrec.2.1, hrec.2.2.trans hstep.2.2⟩

/-- Claim C10: after any completed sequence of `get_thumbnail` /
`get_preview` calls from a fresh cache, the cache dict and the
access-time dict hold exactly the same keys and the number of cached
entries never exceeds `max_size`; a decode failure returns the explicit
failure value `none` and leaves both dicts unchanged (only the modelled
clock advances), so a failed decode is never cached. -/
theorem cache_state_invariant (I : Type) (decT decP : String → Option I)
    (N : ℕ) (ops : List (Bool × String)) :
    ((runOps decT decP (ImageCache.init I N) ops).cache.map (·.1) =
        (runOps decT decP (ImageCache.init I N) ops).access_time.map (·.1)) ∧
      (runOps decT decP (ImageCache.init I N) ops).cache.length ≤ N ∧
      (∀ (c : ImageCache I) (p : String),
        dictGet c.cache ("thumb_" ++ p) = none → decT p = none →
        get_thumbnail decT c p = (none, { c with clock := c.clock + 1 })) ∧
      (∀ (c : ImageCache I) (p : String),
        dictGet c.cache ("preview_" ++ p) = none → decP p = none →
        get_preview decP c p = (none, { c with clock := c.clock + 1 })) := by
  have h := runOps_inv decT decP ops (ImageCache.init I N) rfl
    (by simp [ImageCache.init])
  refine ⟨h.1, ?_, ?_, ?_⟩
  · have h2 := h.2.1
    rw [h.2.2] at h2
    exact h2
  · intro c p hkey hdec
    unfold get_thumbnail getCached
    dsimp only
    rw [hkey]
    dsimp only
    rw [hdec]
  · intro c p hkey hdec
    unfold get_preview getCached
    dsimp only
    rw [hkey]
    dsimp only
    rw [hdec]

theorem cache_state_invariant_witness :
    ((runOps noneUnitDecode noneUnitDecode (ImageCache.init Unit 1)
          [(true, "a")]).cache.map (·.1) =
        (runOps noneUnitDecode noneUnitDecode (ImageCache.init Unit 1)
          [(true, "a")]).access_time.map (·.1)) ∧
      (runOps noneUnitDecode noneUnitDecode (ImageCache.init Unit 1)
          [(true, "a")]).cache.length ≤ 1 ∧
      (dictGet (ImageCache.init Unit 1).cache ("thumb_" ++ "a") = none ∧
        noneUnitDecode "a" = none ∧
        get_thumbnail noneUnitDecode (ImageCache.init Unit 1) "a" =
          (none, { ImageCache.init Unit 1 with
            clock := (ImageCache.init Unit 1).clock + 1 })) ∧
      (dictGet (ImageCache.init Unit 1).cache ("preview_" ++ "a") = none ∧
        noneUnitDecode "a" = none ∧
        get_preview noneUnitDecode (ImageCache.init Unit 1) "a" =
          (none, { ImageCache.init Unit 1 with
            clock := (ImageCache.init Unit 1).clock + 1 })) :=
  ⟨(cache_state_invariant Unit noneUnitDecode noneUnitDecode 1 [(true, "a")]).1,
   (cache_state_invariant Unit noneUnitDecode noneUnitDecode 1 [(true, "a")]).2.1,
   ⟨rfl, rfl,
    (cache_state_invariant Unit noneUnitDecode noneUnitDecode 1
      [(true, "a")]).2.2.1 (ImageCache.init Unit 1) "a" rfl rfl⟩,
   ⟨rfl, rfl,
    (cache_state_invariant Unit noneUnitDecode noneUnitDecode 1
      [(true, "a")]).2.2.2 (ImageCache.init Unit 1) "a" rfl rfl⟩⟩

/-! ## Claim C8 -/

/-- Arithmetic of the pagination computation for a positive
configuration: `total_pages` is the ceiling of the item count over
`items_per_page` (characterized by the two bounds below), and every
page from 1 to the page count yields an in-range, non-empty slice of at
most `items_per_page` items. -/
theorem grid_total_pages_ceiling_and_slices (n cols rows : ℤ) (data : List α)
    (hc : 1 ≤ cols) (hr : 1 ≤ rows) (hd : (data.length : ℤ) = n) :
    images_per_page cols rows = cols * rows ∧
      ∃ tp, grid_total_pages n cols rows = .ok tp ∧
        n ≤ images_per_page cols rows * tp ∧
        images_per_page cols rows * (tp - 1) < n ∧
        ∀ page : ℤ, 1 ≤ page → page ≤ tp →
          (grid_page_slice data cols rows page).length ≤
              (images_per_page cols rows).toNat ∧
            grid_page_slice data cols rows page ≠ [] := by
  have hn : 0 ≤ n := hd ▸ Int.natCast_nonneg _
  simp only [images_per_page]
  have h0 : (0 : ℤ) < cols * rows := mul_pos (by omega) (by omega)
  have hipp1 : (1 : ℤ) ≤ cols * rows := by linarith
  set ipp := cols * rows with hippdef
  have hne : ipp ≠ 0 := ne_of_gt h0
  set q := (n + ipp - 1).fdiv ipp with hqdef
  set r := (n + ipp - 1).fmod ipp with hrdef
  have hdecomp : ipp * q + r = n + ipp - 1 := Int.fdiv_add_fmod _ _
  have hr0 : 0 ≤ r := Int.fmod_nonneg (by linarith) (by linarith)
  have hrlt : r < ipp := Int.fmod_lt_of_pos _ h0
  have hub : n ≤ ipp * q := by linarith
  have hlb : ipp * (q - 1) < n := by
    have hexp : ipp * (q - 1) = ipp * q - ipp := by ring
    linarith
  refine ⟨by trivial, q, ?_, hub, hlb, ?_⟩
  · simp only [grid_total_pages, pyFloorDiv, images_per_page, ← hippdef,
      if_neg hne, ← hqdef]
  · intro page hp1 hpq
    simp only [grid_page_slice, images_per_page, ← hippdef]
    set start := (page - 1) * ipp with hsdef
    have hstart0 : 0 ≤ start := mul_nonneg (by omega) (by linarith)
    have hstartlt : start < n := by
      have h1 : (page - 1) * ipp ≤ (q - 1) * ipp :=
        mul_le_mul_of_nonneg_right (by omega) (by linarith)
      have h2 : (q - 1) * ipp = ipp * (q - 1) := mul_comm _ _
      linarith
    set stop := min (start + ipp) ((data.length : ℤ)) with hstdef
    have hstopn : stop ≤ n := by
      rw [hstdef, hd]
      exact min_le_right _ _
    have hstople : stop ≤ start + ipp := min_le_left _ _
    have hltstop : start < stop := lt_min (by linarith) (by rw [hd]; exact hstartlt)
    have hstop0 : 0 ≤ stop := le_of_lt (lt_of_le_of_lt hstart0 hltstop)
    have hlen : ((data.take stop.toNat).drop start.toNat).length =
        stop.toNat ⊓ data.length - start.toNat := by
      rw [List.length_drop, List.length_take]
    have htoN : stop.toNat ≤ data.length := by omega
    constructor
    · rw [hlen, min_eq_left htoN]
      omega
    · apply List.ne_nil_of_length_pos
      rw [hlen, min_eq_left htoN]
      omega

/-- A successful slider result is always one of the offered options. -/
theorem st_select_slider_ok_mem (options : List ℤ) (v sel cols : ℤ)
    (h : st_select_slider options v sel = .ok cols) : cols ∈ options := by
  unfold st_select_slider at h
  by_cases hv : v ∈ options
  · rw [if_pos hv] at h
    injection h with h'
    subst h'
    split_ifs with hs
    · exact hs
    · exact hv
  · rw [if_neg hv] at h
    exact absurd h (by simp)

/-- Claim C8: both grid functions pass `cols` through
`st.select_slider(options=[2, 3, 4, 5, 6], value=cols)` before any
pagination arithmetic, so an invalid columns configuration — the only
way to a zero or negative `items_per_page`, the rows multiplier being
the positive literal 4 or 3 — fails inside the widget with a
distinguishable configuration error before the division is reached:
never a `ZeroDivisionError`, never a silent out-of-range page count.
For every configuration the widget admits, `items_per_page` is
`cols * rows`, the total page count is the ceiling of the item count
divided by `items_per_page`, and every page from 1 to that count
yields an in-range, non-empty slice of at most `items_per_page`
items. -/
theorem grid_pagination_config (rows n : ℤ) (data : List α) (colsArg sel : ℤ)
    (hr : 1 ≤ rows) (hd : (data.length : ℤ) = n) :
    (colsArg ∉ gridColsOptions →
      show_grid_pagination rows n colsArg sel = .error .configError ∧
        PyError.configError ≠ PyError.zeroDivisionError) ∧
      (∀ cols : ℤ, st_select_slider gridColsOptions colsArg sel = .ok cols →
        1 ≤ cols ∧
        show_grid_pagination rows n colsArg sel = grid_total_pages n cols rows ∧
        images_per_page cols rows = cols * rows ∧
        ∃ tp, grid_total_pages n cols rows = .ok tp ∧
          n ≤ images_per_page cols rows * tp ∧
          images_per_page cols rows * (tp - 1) < n ∧
          ∀ page : ℤ, 1 ≤ page → page ≤ tp →
            (grid_page_slice data cols rows page).length ≤
                (images_per_page cols rows).toNat ∧
              grid_page_slice data cols rows page ≠ []) := by
  constructor
  · intro hbad
    constructor
    · unfold show_grid_pagination st_select_slider
      rw [if_neg hbad]
    · decide
  · intro cols hok
    have hmem : cols ∈ gridColsOptions := st_select_slider_ok_mem _ _ _ _ hok
    have hc : 1 ≤ cols := by
      have h5 : cols = 2 ∨ cols = 3 ∨ cols = 4 ∨ cols = 5 ∨ cols = 6 := by
        simpa [gridColsOptions] using hmem
      omega
    have heq : show_grid_pagination rows n colsArg sel =
        grid_total_pages n cols rows := by
      unfold show_grid_pagination
      rw [hok]
    have harith := grid_total_pages_ceiling_and_slices n cols rows data hc hr hd
    exact ⟨hc, heq, harith.1, harith.2⟩

theorem grid_pagination_config_witness :
    ((1 : ℤ) ≤ 3 ∧ (((List.range 10).length : ℤ) = 10)) ∧
      ((0 : ℤ) ∉ gridColsOptions ∧
        show_grid_pagination 3 10 0 0 = .error .configError ∧
        PyError.configError ≠ PyError.zeroDivisionError) ∧
      (st_select_slider gridColsOptions 4 4 = .ok 4 ∧
        ((1 : ℤ) ≤ 4 ∧
          show_grid_pagination 3 10 4 4 = grid_total_pages 10 4 3 ∧
          images_per_page 4 3 = 4 * 3 ∧
          ∃ tp, grid_total_pages 10 4 3 = .ok tp ∧
            (10 : ℤ) ≤ images_per_page 4 3 * tp ∧
            images_per_page 4 3 * (tp - 1) < 10 ∧
            ∀ page : ℤ, 1 ≤ page → page ≤ tp →
              (grid_page_slice (List.range 10) 4 3 page).length ≤
                  (images_per_page 4 3).toNat ∧
                grid_page_slice (List.range 10) 4 3 page ≠ [])) :=
  ⟨⟨by decide, by decide⟩,
   ⟨by decide,
    ((grid_pagination_config 3 10 (List.range 10) 0 0 (by decide) (by decide)).1
      (by decide)).1,
    ((grid_pagination_config 3 10 (List.range 10) 0 0 (by decide) (by decide)).1
      (by decide)).2⟩,
   ⟨rfl,
    (grid_pagination_config 3 10 (List.range 10) 4 4 (by decide) (by decide)).2
      4 rfl⟩⟩

/-! ## Claim C9 -/

/-- Claim C9 is falsified by the code: `main_source` is computed as
`max(set(time_sources), key=time_sources.count)`, and Python `max`
breaks ties by the iteration order of `set(time_sources)` — a
hash-determined order — not by first occurrence in the collection.
Here, for the two-element collection `[exif, filename]` (a tie), the
set enumeration `[filename, exif]` is a valid iteration order of its
distinct elements, and the computation then reports `filename`,
whereas the first-occurrence stable mode the claim describes reports
`exif`. -/
theorem main_source_tie_not_first_occurrence_counterexample :
    isSetEnum [TimeSource.filename, TimeSource.exif]
        [TimeSource.exif, TimeSource.filename] ∧
      ([TimeSource.exif, TimeSource.filename].count TimeSource.exif =
        [TimeSource.exif, TimeSource.filename].count TimeSource.filename) ∧
      main_source_of [TimeSource.filename, TimeSource.exif]
          [TimeSource.exif, TimeSource.filename] = some .filename ∧
      stableModeSpec [TimeSource.exif, TimeSource.filename] = some .exif ∧
      TimeSource.filename ≠ TimeSource.exif :=
  ⟨⟨by decide, fun a => by cases a <;> decide⟩,
   by decide, by decide, by decide, by decide⟩

/-- Claim C9 (amended): the computed value is always a most frequent
element of the collection; when a single value has strictly maximal
frequency, it is reported regardless of the (hash-determined) set
iteration order.  Ties, however, are broken by set iteration order,
which need not be first-occurrence order (see the counterexample). -/
theorem main_source_unique_max [DecidableEq α] (ord xs : List α) (m : α)
    (he : isSetEnum ord xs) (hm : m ∈ xs)
    (hu : ∀ b ∈ xs, b ≠ m → xs.count b < xs.count m) :
    main_source_of ord xs = some m := by
  have hmord : m ∈ ord := (he.2 m).2 hm
  cases ord with
  | nil => simp at hmord
  | cons a rest =>
    have hunfold : main_source_of (a :: rest) xs =
        some (rest.foldl
          (fun best x => if xs.count best < xs.count x then x else best) a) := rfl
    have hres_mem :
        rest.foldl (fun best x => if xs.count best < xs.count x then x else best) a ∈
          a :: rest := foldl_maxCount_mem xs rest a
    have hres_xs :
        rest.foldl (fun best x => if xs.count best < xs.count x then x else best) a ∈
          xs := (he.2 _).1 hres_mem
    have hge :
        xs.count m ≤
          xs.count
            (rest.foldl (fun best x => if xs.count best < xs.count x then x else best)
              a) := foldl_maxCount_ge xs rest a m hmord
    by_cases hrm :
        rest.foldl (fun best x => if xs.count best < xs.count x then x else best) a = m
    · rw [hunfold, hrm]
    · exact absurd hge (not_le.2 (hu _ hres_xs hrm))

theorem main_source_unique_max_witness :
    (isSetEnum [TimeSource.mtime, TimeSource.filename]
        [TimeSource.filename, TimeSource.mtime, TimeSource.filename] ∧
      TimeSource.filename ∈
        [TimeSource.filename, TimeSource.mtime, TimeSource.filename] ∧
      ∀ b ∈ [TimeSource.filename, TimeSource.mtime, TimeSource.filename],
        b ≠ TimeSource.filename →
          [TimeSource.filename, TimeSource.mtime, TimeSource.filename].count b <
            [TimeSource.filename, TimeSource.mtime,
              TimeSource.filename].count TimeSource.filename) ∧
      main_source_of [TimeSource.mtime, TimeSource.filename]
          [TimeSource.filename, TimeSource.mtime, TimeSource.filename] =
        some TimeSource.filename :=
  ⟨⟨⟨by decide, fun a => by cases a <;> decide⟩, by decide, by decide⟩,
   main_source_unique_max [TimeSource.mtime, TimeSource.filename]
     [TimeSource.filename, TimeSource.mtime, TimeSource.filename]
     TimeSource.filename ⟨by decide, fun a => by cases a <;> decide⟩ (by decide)
     (by decide)⟩

end AVP
